import Mathlib

/-!
Verification of the reconciliation engine of `github-api-sync`.

This file gives a shallow embedding of:
* the delta resolver of `GithubApiSyncPlugin.checkout` (`src/main.ts`),
* the remote change-log computation `GitHubClient.getFileChangesSince`
  (`src/github.ts`),
* the Merkle tree builder and differ (`src/tree.ts`),
* the three-way text merge `threeWayMerge` (`src/merge.ts`),
and proves the spec's properties about them.

JavaScript nullable values (`localChanges`, `remoteChanges` may be `null`
when there is no checkpoint) become `Option`; optional chaining
`x?.f` followed by a boolean use becomes a `match` on the `Option` whose
`none` branch yields the JS falsy result. Arrays of strings become
`List String`; `Array.prototype.includes` / Obsidian's `contains` become
`List.contains`.
-/

namespace GithubApiSync

/-- `FileChangeOp.action` values: `"added" | "modified" | "removed"`. -/
inductive ChangeAction where
  | added
  | modified
  | removed
deriving DecidableEq, Repr

/-- `FileChangeOp` from `src/types.ts`: one change record of the remote
change log, `{ path, action }`. -/
structure FileChangeOp where
  path : String
  action : ChangeAction
deriving DecidableEq, Repr

/-- `OperationMode` setting: `"pull" | "push" | "bidirectional"`. -/
inductive OperationMode where
  | pull
  | push
  | bidirectional
deriving DecidableEq, Repr

/-- The four path sets produced by the delta-resolution block of
`GithubApiSyncPlugin.checkout` (`src/main.ts`, lines 1161-1205). -/
structure DeltaResolution where
  downloads : List String
  uploads : List String
  removes : List String
  conflicts : List String
deriving DecidableEq, Repr

/-- The delta-resolution block of `GithubApiSyncPlugin.checkout`
(`src/main.ts` lines 1161-1205), as a pure function of the structural
diff (`localOnly`, `modified`, `remoteOnly`), the two change logs and
the strategy.  `localChanges = none` models `localChanges === null`
(no `lastSyncedAt`), `remoteChanges = none` models
`remoteChanges === null` (no `currentCommit`). -/
def checkoutDelta (strategy : OperationMode)
    (localOnly modified remoteOnly : List String)
    (localChanges : Option (List String))
    (remoteChanges : Option (List FileChangeOp)) : DeltaResolution :=
  match strategy with
  | .pull =>
      { downloads := remoteOnly ++ modified
        uploads := []
        removes := localOnly
        conflicts := [] }
  | .push =>
      { downloads := []
        uploads := localOnly ++ modified
        removes := []
        conflicts := [] }
  | .bidirectional =>
      -- `!localChanges?.contains(v)`: `none` makes the guard pass
      let notLocallyChanged : String → Bool := fun v =>
        match localChanges with
        | some l => !(l.contains v)
        | none => true
      -- `!remoteChanges?.filter(removed).map(path).includes(v)`
      let notRemoteRemoved : String → Bool := fun v =>
        match remoteChanges with
        | some rc =>
            !(((rc.filter (fun r => r.action == ChangeAction.removed)).map
                (fun r => r.path)).contains v)
        | none => true
      let downloads := (remoteOnly ++ modified).filter
        (fun v => notLocallyChanged v && notRemoteRemoved v)
      let removes :=
        match remoteChanges with
        | some rc =>
            (rc.filter (fun r =>
              r.action == ChangeAction.removed && notLocallyChanged r.path)).map
              (fun r => r.path)
        | none => []
      -- `!remoteChanges?.map(path).contains(v)`: `none` makes the guard pass
      let notInRemoteLog : String → Bool := fun v =>
        match remoteChanges with
        | some rc => !((rc.map (fun r => r.path)).contains v)
        | none => true
      let uploadsBase := (localOnly ++ modified).filter notInRemoteLog
      -- "upload remoteOnly because it may be deleted"
      let uploads :=
        match remoteChanges with
        | some rc =>
            uploadsBase ++ remoteOnly.filter
              (fun v => !((rc.map (fun r => r.path)).contains v))
        | none => uploadsBase
      -- `remoteChanges?.map(path).filter(v => localChanges?.includes(v)) ?? []`
      let conflicts :=
        match remoteChanges with
        | some rc =>
            (rc.map (fun r => r.path)).filter (fun v =>
              match localChanges with
              | some l => l.contains v
              | none => false)
        | none => []
      { downloads := downloads
        uploads := uploads
        removes := removes
        conflicts := conflicts }

/-- C1: in bidirectional strategy, every path reported as touched by both
the local change log and the remote change log is placed in `conflicts`,
and appears in neither `downloads` nor `uploads`. -/
theorem bidirectional_conflict_exclusive
    (localOnly modified remoteOnly : List String)
    (l : List String) (rc : List FileChangeOp) (p : String)
    (hl : p ∈ l) (hr : p ∈ rc.map (fun r => r.path)) :
    p ∈ (checkoutDelta .bidirectional localOnly modified remoteOnly
          (some l) (some rc)).conflicts ∧
    p ∉ (checkoutDelta .bidirectional localOnly modified remoteOnly
          (some l) (some rc)).downloads ∧
    p ∉ (checkoutDelta .bidirectional localOnly modified remoteOnly
          (some l) (some rc)).uploads := by
  refine ⟨?_, ?_, ?_⟩
  · simp only [checkoutDelta, List.mem_filter]
    exact ⟨hr, by simpa using hl⟩
  · simp only [checkoutDelta, List.mem_filter, List.mem_append]
    rintro ⟨-, hcond⟩
    simp only [Bool.and_eq_true, Bool.not_eq_true'] at hcond
    exact absurd hl (by simpa using hcond.1)
  · simp only [checkoutDelta, List.mem_filter, List.mem_append]
    rintro (⟨-, hcond⟩ | ⟨-, hcond⟩) <;>
      exact absurd hr (by simpa using hcond)

/-- Witness for C1 at a concrete input: `a.md` modified on both sides. -/
theorem bidirectional_conflict_exclusive_witness :
    "a.md" ∈ (checkoutDelta .bidirectional [] ["a.md"] []
        (some ["a.md"]) (some [⟨"a.md", .modified⟩])).conflicts ∧
    "a.md" ∉ (checkoutDelta .bidirectional [] ["a.md"] []
        (some ["a.md"]) (some [⟨"a.md", .modified⟩])).downloads ∧
    "a.md" ∉ (checkoutDelta .bidirectional [] ["a.md"] []
        (some ["a.md"]) (some [⟨"a.md", .modified⟩])).uploads :=
  bidirectional_conflict_exclusive [] ["a.md"] [] ["a.md"]
    [⟨"a.md", .modified⟩] "a.md" (by decide) (by decide)

/-- C5 counterexample: with `a.md` in `differing` and empty (but present)
change logs on both sides, `a.md` is selected for download *and* for
upload in the same resolution, so `downloads` is not disjoint from
`uploads` and is not "`onlyRight ∪ differing` minus locally-changed minus
already-uploaded". -/
theorem bidirectional_download_upload_overlap :
    "a.md" ∈ (checkoutDelta .bidirectional [] ["a.md"] []
        (some []) (some [])).downloads ∧
    "a.md" ∈ (checkoutDelta .bidirectional [] ["a.md"] []
        (some []) (some [])).uploads := by decide

/-- C5 (amended): in bidirectional strategy (with both change logs
present), `downloads` contains exactly those paths of
`onlyRight ∪ differing` that are neither locally changed since the
checkpoint nor marked `removed` in the remote change log; the set is not
in general disjoint from `uploads`. -/
theorem bidirectional_downloads_characterization
    (localOnly modified remoteOnly : List String)
    (l : List String) (rc : List FileChangeOp) (p : String) :
    p ∈ (checkoutDelta .bidirectional localOnly modified remoteOnly
          (some l) (some rc)).downloads ↔
      ((p ∈ remoteOnly ∨ p ∈ modified) ∧ p ∉ l ∧
        ∀ r ∈ rc, r.action = ChangeAction.removed → r.path ≠ p) := by
  simp only [checkoutDelta, List.mem_filter, List.mem_append,
    Bool.and_eq_true, Bool.not_eq_true']
  constructor
  · rintro ⟨hmem, hloc, hrem⟩
    refine ⟨hmem, by simpa using hloc, ?_⟩
    intro r hrrc hract hpath
    have : p ∈ (rc.filter
        (fun r => r.action == ChangeAction.removed)).map (fun r => r.path) := by
      exact List.mem_map.mpr ⟨r, List.mem_filter.mpr ⟨hrrc, by simp [hract]⟩,
        hpath⟩
    exact absurd this (by simpa using hrem)
  · rintro ⟨hmem, hloc, hrem⟩
    refine ⟨hmem, by simpa using hloc, ?_⟩
    have : p ∉ (rc.filter
        (fun r => r.action == ChangeAction.removed)).map (fun r => r.path) := by
      intro hp
      obtain ⟨r, hrf, hpath⟩ := List.mem_map.mp hp
      obtain ⟨hrrc, hract⟩ := List.mem_filter.mp hrf
      exact hrem r hrrc (by simpa using hract) hpath
    simpa using this

/-- C9: under the pull strategy the resolver returns
`downloads = onlyRight ∪ differing`, `removes = onlyLeft`, and empty
`uploads` and `conflicts`; in particular the spec's scenario
(`onlyLeft = {a.md}`, `differing = {b.md}`, `onlyRight = {c.md}`) yields
`downloads = {b.md, c.md}`, `removes = {a.md}`, `uploads = {}`. -/
theorem pull_strategy_resolution
    (localOnly modified remoteOnly : List String)
    (localChanges : Option (List String))
    (remoteChanges : Option (List FileChangeOp)) :
    (∀ p, p ∈ (checkoutDelta .pull localOnly modified remoteOnly
        localChanges remoteChanges).downloads ↔
        (p ∈ remoteOnly ∨ p ∈ modified)) ∧
    (checkoutDelta .pull localOnly modified remoteOnly
        localChanges remoteChanges).removes = localOnly ∧
    (checkoutDelta .pull localOnly modified remoteOnly
        localChanges remoteChanges).uploads = [] ∧
    (checkoutDelta .pull localOnly modified remoteOnly
        localChanges remoteChanges).conflicts = [] ∧
    (∀ p, p ∈ (checkoutDelta .pull ["a.md"] ["b.md"] ["c.md"]
        localChanges remoteChanges).downloads ↔
        (p = "b.md" ∨ p = "c.md")) ∧
    (checkoutDelta .pull ["a.md"] ["b.md"] ["c.md"]
        localChanges remoteChanges).removes = ["a.md"] ∧
    (checkoutDelta .pull ["a.md"] ["b.md"] ["c.md"]
        localChanges remoteChanges).uploads = [] := by
  refine ⟨fun p => ?_, rfl, rfl, rfl, fun p => ?_, rfl, rfl⟩
  · simp [checkoutDelta]
  · simp [checkoutDelta, or_comm]

/-! ### Remote change log: `GitHubClient.getFileChangesSince` -/

/-- One entry of the GitHub compare-API response as consumed by
`getFileChangesSince`: `{ filename, status, previous_filename? }`. -/
structure CompareFile where
  filename : String
  status : String
  previous_filename : Option String
deriving DecidableEq, Repr

/-- The per-file accumulation loop of `GitHubClient.getFileChangesSince`
(`src/github.ts` lines 306-319): one op per status, renames become a
`removed` at the previous path (when known) followed by an `added` at the
new path. -/
def buildOps (files : List CompareFile) : List FileChangeOp :=
  (files.map (fun file =>
    if file.status == "added" then
      [⟨file.filename, ChangeAction.added⟩]
    else if file.status == "removed" then
      [⟨file.filename, ChangeAction.removed⟩]
    else if file.status == "modified" || file.status == "changed" then
      [⟨file.filename, ChangeAction.modified⟩]
    else if file.status == "renamed" then
      (match file.previous_filename with
        | some prev => [⟨prev, ChangeAction.removed⟩]
        | none => []) ++ [⟨file.filename, ChangeAction.added⟩]
    else [])).flatten

/-- JavaScript `Map.set` on an insertion-ordered association list:
update the value in place when the key is present, else append. -/
def mapSet (m : List (String × ChangeAction)) (p : String)
    (a : ChangeAction) : List (String × ChangeAction) :=
  match m with
  | [] => [(p, a)]
  | (q, b) :: rest =>
      if q = p then (q, a) :: rest else (q, b) :: mapSet rest p a

/-- `GitHubClient.getFileChangesSince` (`src/github.ts` lines 291-330) as
a function of the compare-API file list: accumulate ops, then keep only
the final action per path via a JS `Map` (insertion-ordered, last `set`
wins) and read the map back out. -/
def getFileChangesSince (files : List CompareFile) : List FileChangeOp :=
  let ops := buildOps files
  let finalMap := ops.foldl (fun m op => mapSet m op.path op.action) []
  finalMap.map (fun e => ⟨e.1, e.2⟩)

/-- Specification-side helper: the action of the *last* op for path `p`
in an op list, if any. -/
def lastActionOf : List FileChangeOp → String → Option ChangeAction
  | [], _ => none
  | op :: rest, p =>
      match lastActionOf rest p with
      | some a => some a
      | none => if op.path = p then some op.action else none

/-- Keys of the association list, in insertion order. -/
def mapKeys (m : List (String × ChangeAction)) : List String :=
  m.map Prod.fst

/-- Value stored for key `p`, if any. -/
def mapGet (m : List (String × ChangeAction)) (p : String) :
    Option ChangeAction :=
  (m.find? (fun e => e.1 == p)).map Prod.snd

theorem mapKeys_mapSet (m : List (String × ChangeAction)) (p : String)
    (a : ChangeAction) :
    mapKeys (mapSet m p a) =
      if p ∈ mapKeys m then mapKeys m else mapKeys m ++ [p] := by
  induction m with
  | nil => simp [mapSet, mapKeys]
  | cons e rest ih =>
      obtain ⟨q, b⟩ := e
      by_cases hq : q = p
      · subst hq
        simp [mapSet, mapKeys]
      · rw [mapSet, if_neg hq,
          show mapKeys ((q, b) :: mapSet rest p a)
            = q :: mapKeys (mapSet rest p a) from rfl, ih,
          show mapKeys ((q, b) :: rest) = q :: mapKeys rest from rfl]
        by_cases hp : p ∈ mapKeys rest
        · simp [hp, Ne.symm hq]
        · simp [hp, Ne.symm hq]

theorem mapKeys_mapSet_nodup (m : List (String × ChangeAction)) (p : String)
    (a : ChangeAction) (h : (mapKeys m).Nodup) :
    (mapKeys (mapSet m p a)).Nodup := by
  rw [mapKeys_mapSet]
  by_cases hp : p ∈ mapKeys m
  · simpa [hp] using h
  · rw [if_neg hp]
    rw [List.nodup_append]
    exact ⟨h, List.nodup_singleton p, by
      intro x hx hx'
      simp only [List.mem_singleton] at hx'
      exact hp (hx' ▸ hx)⟩

theorem mapGet_mapSet_self (m : List (String × ChangeAction)) (p : String)
    (a : ChangeAction) : mapGet (mapSet m p a) p = some a := by
  induction m with
  | nil => simp [mapSet, mapGet]
  | cons e rest ih =>
      obtain ⟨q, b⟩ := e
      by_cases hq : q = p
      · subst hq
        simp [mapSet, mapGet]
      · rw [mapSet, if_neg hq, mapGet,
          List.find?_cons_of_neg _ (by simpa using hq)]
        exact ih

theorem mapGet_mapSet_other (m : List (String × ChangeAction))
    (p q : String) (a : ChangeAction) (h : q ≠ p) :
    mapGet (mapSet m p a) q = mapGet m q := by
  induction m with
  | nil =>
      rw [mapSet, mapGet, mapGet,
        List.find?_cons_of_neg _ (by simpa using Ne.symm h)]
  | cons e rest ih =>
      obtain ⟨r, b⟩ := e
      by_cases hr : r = p
      · subst hr
        rw [mapSet, if_pos rfl, mapGet, mapGet,
          List.find?_cons_of_neg _ (by simpa using fun hc => h hc.symm),
          List.find?_cons_of_neg _ (by simpa using fun hc => h hc.symm)]
      · rw [mapSet, if_neg hr]
        by_cases hrq : r = q
        · subst hrq
          rw [mapGet, mapGet, List.find?_cons_of_pos _ (by simp),
            List.find?_cons_of_pos _ (by simp)]
        · rw [mapGet, mapGet,
            List.find?_cons_of_neg _ (by simpa using hrq),
            List.find?_cons_of_neg _ (by simpa using hrq)]
          exact ih

theorem mapGet_foldl (ops : List FileChangeOp)
    (m : List (String × ChangeAction)) (p : String) :
    mapGet (ops.foldl (fun m op => mapSet m op.path op.action) m) p =
      match lastActionOf ops p with
      | some a => some a
      | none => mapGet m p := by
  induction ops generalizing m with
  | nil => simp [lastActionOf]
  | cons op rest ih =>
      rw [List.foldl_cons, ih, lastActionOf]
      by_cases hlast : ∃ a, lastActionOf rest p = some a
      · obtain ⟨a, ha⟩ := hlast
        simp [ha]
      · have hnone : lastActionOf rest p = none := by
          cases hx : lastActionOf rest p with
          | none => rfl
          | some a => exact absurd ⟨a, hx⟩ hlast
        by_cases hp : op.path = p
        · simp [hnone, hp, mapGet_mapSet_self]
        · simp [hnone, hp, mapGet_mapSet_other _ _ _ _ (Ne.symm hp)]

theorem mapKeys_foldl_nodup (ops : List FileChangeOp)
    (m : List (String × ChangeAction)) (h : (mapKeys m).Nodup) :
    (mapKeys (ops.foldl (fun m op => mapSet m op.path op.action) m)).Nodup := by
  induction ops generalizing m with
  | nil => exact h
  | cons op rest ih =>
      rw [List.foldl_cons]
      exact ih _ (mapKeys_mapSet_nodup _ _ _ h)

theorem mem_iff_mapGet (m : List (String × ChangeAction)) (p : String)
    (a : ChangeAction) (h : (mapKeys m).Nodup) :
    (p, a) ∈ m ↔ mapGet m p = some a := by
  induction m with
  | nil => simp [mapGet]
  | cons e rest ih =>
      obtain ⟨q, b⟩ := e
      have hk : (∀ c, (q, c) ∉ rest) ∧ (List.map Prod.fst rest).Nodup := by
        have := h
        rw [mapKeys] at this
        simp only [List.map_cons, List.nodup_cons] at this
        refine ⟨fun c hc => this.1 (List.mem_map.mpr ⟨(q, c), hc, rfl⟩),
          this.2⟩
      by_cases hq : q = p
      · subst hq
        rw [mapGet, List.find?_cons_of_pos _ (by simp)]
        simp only [List.mem_cons, Prod.mk.injEq, Option.map_some',
          Option.some.injEq]
        constructor
        · rintro (⟨-, rfl⟩ | hmem)
          · rfl
          · exact absurd hmem (hk.1 a)
        · rintro rfl
          exact Or.inl (by simp)
      · rw [mapGet, List.find?_cons_of_neg _ (by simpa using hq), ← mapGet,
          ← ih (by rw [mapKeys]; exact hk.2)]
        simp only [List.mem_cons, Prod.mk.injEq]
        constructor
        · rintro (⟨rfl, -⟩ | hmem)
          · exact absurd rfl hq
          · exact hmem
        · exact fun hmem => Or.inr hmem

/-- C10: the remote change-log computation returns at most one record per
path (its path list has no duplicates); a record `⟨p, a⟩` is returned
exactly when `a` is the *last* action the comparison produced for `p`;
and a renamed file is reported as `removed` at its previous path and
`added` at its new path. -/
theorem getFileChangesSince_one_record_per_path (files : List CompareFile) :
    ((getFileChangesSince files).map (fun o => o.path)).Nodup ∧
    (∀ p a, (⟨p, a⟩ : FileChangeOp) ∈ getFileChangesSince files ↔
      lastActionOf (buildOps files) p = some a) ∧
    getFileChangesSince [⟨"new.md", "renamed", some "old.md"⟩] =
      [⟨"old.md", ChangeAction.removed⟩, ⟨"new.md", ChangeAction.added⟩] := by
  refine ⟨?_, ?_, by decide⟩
  · have h := mapKeys_foldl_nodup (buildOps files) [] (by simp [mapKeys])
    simpa [getFileChangesSince, mapKeys, List.map_map, Function.comp]
      using h
  · intro p a
    rw [getFileChangesSince]
    have hnd := mapKeys_foldl_nodup (buildOps files) [] (by simp [mapKeys])
    have hmem : (⟨p, a⟩ : FileChangeOp) ∈
        ((buildOps files).foldl (fun m op => mapSet m op.path op.action)
          []).map (fun e => (⟨e.1, e.2⟩ : FileChangeOp)) ↔
        (p, a) ∈ (buildOps files).foldl
          (fun m op => mapSet m op.path op.action) [] := by
      rw [List.mem_map]
      constructor
      · rintro ⟨⟨q, b⟩, hmem, heq⟩
        cases heq
        exact hmem
      · exact fun hmem => ⟨(p, a), hmem, rfl⟩
    rw [hmem, mem_iff_mapGet _ _ _ hnd, mapGet_foldl]
    cases hx : lastActionOf (buildOps files) p with
    | none => simp [mapGet]
    | some b => simp

/-! ### Merkle trees and the structural differ (`src/tree.ts`) -/

/-- `MerkleNode` from `src/tree.ts`: a file node has `children === null`,
a directory node carries a list of children. -/
inductive MerkleNode where
  | file (path hash : String)
  | dir (path hash : String) (children : List MerkleNode)
deriving Repr

/-- `node.path`. -/
def MerkleNode.path : MerkleNode → String
  | .file p _ => p
  | .dir p _ _ => p

/-- `node.hash`. -/
def MerkleNode.hash : MerkleNode → String
  | .file _ h => h
  | .dir _ h _ => h

/-- `node.children || []`. -/
def MerkleNode.childrenOrNil : MerkleNode → List MerkleNode
  | .file _ _ => []
  | .dir _ _ ch => ch

/-- `node.children === null`. -/
def MerkleNode.isFile : MerkleNode → Bool
  | .file _ _ => true
  | .dir _ _ _ => false

/-- The `Differences` record of `src/tree.ts`: `left` / `both` / `right`
path lists, in push order. -/
structure Differences where
  left : List String
  both : List String
  right : List String
deriving DecidableEq, Repr

/-- `children.find(v => p === v.path)`. -/
def findByPath (children : List MerkleNode) (p : String) : Option MerkleNode :=
  children.find? (fun v => p == v.path)

theorem findByPath_mem {children : List MerkleNode} {p : String}
    {f : MerkleNode} (h : findByPath children p = some f) : f ∈ children :=
  List.mem_of_find?_eq_some h

mutual

/-- Computable size measure used as fuel for the differ: every recursive
call of `compareRecursive` strictly decreases the combined weight of the
two child lists, so the weight of the initial lists bounds the recursion
depth. -/
def nodeWeight : MerkleNode → Nat
  | .file _ _ => 1
  | .dir _ _ ch => 1 + listWeight ch

/-- Weight of a child list, see `nodeWeight`. -/
def listWeight : List MerkleNode → Nat
  | [] => 1
  | n :: rest => 1 + nodeWeight n + listWeight rest

end

/-- One loop of `compareRecursive` in `MerkleDiff.findDifferences`
(`src/tree.ts` lines 134-179).  Phase `false` is the first `for` loop over
`leftChildren`; phase `true` is the second `for` loop over
`rightChildren`, which skips right children whose path occurred among the
left children (those were all added to `compared` by the - already
finished - first loop).  A source call `compareRecursive(a, b)` becomes
the second loop run after the first: `cmpPass fuel true a b (cmpPass fuel
false a b acc)`.

The extra `fuel` argument only makes the recursion structural: every
recursive call strictly decreases the combined weight of the two child
lists, so the fuel supplied by `findDifferences` - the combined weight
of the two roots - is never exhausted. -/
def cmpPass : Nat → Bool → List MerkleNode → List MerkleNode →
    Differences → Differences
  | 0, _, _, _, acc => acc
  | fuel + 1, false, ls, rs, acc =>
    match ls with
    | [] => acc
    | l :: ls' =>
      let acc' :=
        match findByPath rs l.path with
        | none =>
            match l with
            | .file p _ => { acc with left := acc.left ++ [p] }
            | .dir _ _ ch =>
                cmpPass fuel true ch [] (cmpPass fuel false ch [] acc)
        | some f =>
            if l.hash == f.hash then acc
            else
              let acc2 := if l.isFile || f.isFile then
                  { acc with both := acc.both ++ [l.path] } else acc
              cmpPass fuel true l.childrenOrNil f.childrenOrNil
                (cmpPass fuel false l.childrenOrNil f.childrenOrNil acc2)
      cmpPass fuel false ls' rs acc'
  | fuel + 1, true, ls, rs, acc =>
    match rs with
    | [] => acc
    | r :: rs' =>
      let acc' :=
        if (ls.map MerkleNode.path).contains r.path then acc
        else
          match findByPath ls r.path with
          | none =>
              match r with
              | .file p _ => { acc with right := acc.right ++ [p] }
              | .dir _ _ ch =>
                  cmpPass fuel true [] ch (cmpPass fuel false [] ch acc)
          | some f =>
              if r.hash == f.hash then acc
              else
                let acc2 := if r.isFile || f.isFile then
                    { acc with both := acc.both ++ [r.path] } else acc
                cmpPass fuel true f.childrenOrNil r.childrenOrNil
                  (cmpPass fuel false f.childrenOrNil r.childrenOrNil acc2)
      cmpPass fuel true ls rs' acc'


mutual

/-- Leaf (file-node) paths of a subtree, in traversal order. -/
def nodeLeafPaths : MerkleNode → List String
  | .file p _ => [p]
  | .dir _ _ ch => listLeafPaths ch

/-- Leaf (file-node) paths of a child list, in traversal order. -/
def listLeafPaths : List MerkleNode → List String
  | [] => []
  | n :: rest => nodeLeafPaths n ++ listLeafPaths rest

end

/-- `MerkleDiff.findDifferences` (`src/tree.ts` lines 131-184):
`compareRecursive([left], [right])` starting from empty difference sets,
with fuel that the recursion can never exhaust (each nested call strictly
decreases `sizeOf ls + sizeOf rs`, which starts below the fuel). -/
def MerkleDiff.findDifferences (left right : MerkleNode) : Differences :=
  cmpPass (listWeight [left] + listWeight [right]) true [left] [right]
    (cmpPass (listWeight [left] + listWeight [right]) false [left] [right]
      ⟨[], [], []⟩)

theorem cmpPass_false_self (k : Nat) (T : MerkleNode) (acc : Differences) :
    cmpPass (k + 2) false [T] [T] acc = acc := by
  cases T <;>
    simp [cmpPass, findByPath, MerkleNode.path, MerkleNode.hash]

theorem cmpPass_true_self (k : Nat) (T : MerkleNode) (acc : Differences) :
    cmpPass (k + 2) true [T] [T] acc = acc := by
  cases T <;>
    simp [cmpPass, MerkleNode.path]

/-- C2: diffing any tree against itself yields three empty sets. -/
theorem findDifferences_self (T : MerkleNode) :
    MerkleDiff.findDifferences T T = ⟨[], [], []⟩ := by
  rw [MerkleDiff.findDifferences]
  have hF : listWeight [T] + listWeight [T] = 2 * nodeWeight T + 2 + 2 := by
    simp only [listWeight]
    omega
  rw [hF, cmpPass_false_self, cmpPass_true_self]

/-- One change object of the external `diff` library (`diffChars`):
a run of characters that is unchanged, added, or removed. -/
structure DiffPart where
  value : List Char
  added : Bool
  removed : Bool
deriving DecidableEq, Repr

/-- Longest common subsequence of two character lists.  The `fuel`
argument only makes the recursion structural; `lcs` supplies fuel that
cannot run out (every call decreases the combined length). -/
def lcsFuel : Nat → List Char → List Char → List Char
  | 0, _, _ => []
  | _ + 1, [], _ => []
  | _ + 1, _, [] => []
  | fuel + 1, a :: as, b :: bs =>
      if a = b then a :: lcsFuel fuel as bs
      else
        let l1 := lcsFuel fuel (a :: as) bs
        let l2 := lcsFuel fuel as (b :: bs)
        if l2.length ≤ l1.length then l1 else l2

/-- Longest common subsequence (adequately fuelled). -/
def lcs (a b : List Char) : List Char :=
  lcsFuel (a.length + b.length + 1) a b

/-- Modelled from the spec: the external `diff` library's `diffChars`
(`src/merge.ts` imports it; the library itself is not part of this
repository).  The spec (§4.5) requires "a character-level edit script
from `ancestor → ours`", i.e. a minimal ordered script of unchanged /
removed / added runs; like `jsdiff`, a removed run is reported before the
added run replacing it.  Built here by walking a longest common
subsequence: characters before the next common character form a removed
run (from the source text) and an added run (from the target text). -/
def partsFromLcs : List Char → List Char → List Char → List DiffPart
  | a, b, [] =>
      (if a.isEmpty then [] else [⟨a, false, true⟩]) ++
        (if b.isEmpty then [] else [⟨b, true, false⟩])
  | a, b, c :: cs =>
      let aPre := a.takeWhile (fun x => x ≠ c)
      let aRest := (a.dropWhile (fun x => x ≠ c)).drop 1
      let bPre := b.takeWhile (fun x => x ≠ c)
      let bRest := (b.dropWhile (fun x => x ≠ c)).drop 1
      (if aPre.isEmpty then [] else [⟨aPre, false, true⟩]) ++
        (if bPre.isEmpty then [] else [⟨bPre, true, false⟩]) ++
        (⟨[c], false, false⟩ :: partsFromLcs aRest bRest cs)

/-- Modelled from the spec: `diffChars(a, b)`, see `partsFromLcs`. -/
def diffChars (a b : List Char) : List DiffPart :=
  partsFromLcs a b (lcs a b)

/-- `Edit` of `threeWayMerge` (`src/merge.ts` line 18):
`{start, end, newText}`; the source field `end` is a Lean keyword and is
called `stop` here. -/
structure Edit where
  start : Nat
  stop : Nat
  newText : List Char
deriving DecidableEq, Repr

/-- The `for` loop of `buildEdits` (`src/merge.ts` lines 20-54): turn the
diff parts into edits anchored at ancestor positions; a removed part
followed by an added part becomes a single replacement edit. -/
def buildEditsLoop : List DiffPart → Nat → List Edit
  | [], _ => []
  | [p], baseIdx =>
      if p.added then
        [{ start := baseIdx, stop := baseIdx, newText := p.value }]
      else if p.removed then
        [{ start := baseIdx, stop := baseIdx + p.value.length,
           newText := [] }]
      else []
  | p :: next :: rest', baseIdx =>
      if p.added then
        { start := baseIdx, stop := baseIdx, newText := p.value } ::
          buildEditsLoop (next :: rest') baseIdx
      else if p.removed then
        if next.added then
          { start := baseIdx, stop := baseIdx + p.value.length,
            newText := next.value } ::
            buildEditsLoop rest' (baseIdx + p.value.length)
        else
          { start := baseIdx, stop := baseIdx + p.value.length,
            newText := [] } ::
            buildEditsLoop (next :: rest') (baseIdx + p.value.length)
      else
        buildEditsLoop (next :: rest') (baseIdx + p.value.length)

/-- `buildEdits(from, to)` of `src/merge.ts`. -/
def buildEdits (a b : List Char) : List Edit :=
  buildEditsLoop (diffChars a b) 0

/-- `overlaps(a, b)` of `src/merge.ts` lines 71-74. -/
def overlaps (a b : Edit) : Bool :=
  if a.start == b.start then true
  else max a.start b.start < min a.stop b.stop

/-- `base.slice(pos, end)` on character lists. -/
def sliceList (base : List Char) (pos stop : Nat) : List Char :=
  (base.drop pos).take (stop - pos)

/-- The `while` loop of `threeWayMerge` (`src/merge.ts` lines 76-116),
walking the two edit lists.  `result` and `pos` are the loop state;
`copyUntil` becomes appending `sliceList base pos nextStart` and taking
`pos` to `max pos nextStart`.  Every iteration consumes at least one
edit, so the fuel supplied by `threeWayMerge` (more than the combined
list length) cannot run out; the fuel only makes the recursion
structural. -/
def mergeWalk : Nat → List Char → List Edit → List Edit → List Char →
    Nat → Option (List Char)
  | 0, _, _, _, _, _ => none
  | _ + 1, base, [], [], result, pos =>
      some (result ++ base.drop pos)
  | fuel + 1, base, oe :: oes', [], result, pos =>
      -- only `ours` has edits left: `theirsAtStart` is null
      let nextStart := oe.start
      let result1 := result ++ sliceList base pos nextStart
      mergeWalk fuel base oes' [] (result1 ++ oe.newText) oe.stop
  | fuel + 1, base, [], te :: tes', result, pos =>
      let nextStart := te.start
      let result1 := result ++ sliceList base pos nextStart
      mergeWalk fuel base [] tes' (result1 ++ te.newText) te.stop
  | fuel + 1, base, oe :: oes', te :: tes', result, pos =>
      let nextStart := min oe.start te.start
      let result1 := result ++ sliceList base pos nextStart
      if oe.start = nextStart ∧ te.start = nextStart then
        -- both sides have an edit anchored here
        if oe.stop = te.stop ∧ oe.newText = te.newText then
          mergeWalk fuel base oes' tes' (result1 ++ oe.newText) oe.stop
        else none
      else if oe.start = nextStart then
        if overlaps oe te then none
        else mergeWalk fuel base oes' (te :: tes')
          (result1 ++ oe.newText) oe.stop
      else
        if overlaps te oe then none
        else mergeWalk fuel base (oe :: oes') tes'
          (result1 ++ te.newText) te.stop

/-- `threeWayMerge(base, ours, theirs)` (`src/merge.ts` lines 8-120):
fast paths, then the two edit scripts are walked; `null` (conflict)
becomes `none`. -/
def threeWayMerge (base ours theirs : String) : Option String :=
  if ours == theirs then some ours
  else if ours == base then some theirs
  else if theirs == base then some ours
  else
    let b := base.toList
    let ourEdits := buildEdits b ours.toList
    let theirEdits := buildEdits b theirs.toList
    (mergeWalk (ourEdits.length + theirEdits.length + 1) b ourEdits
      theirEdits [] 0).map (fun l => String.mk l)

/-- C6: the three merge identity laws, each returning a merged text. -/
theorem threeWayMerge_identity_laws (x y : String) :
    threeWayMerge x y y = some y ∧ threeWayMerge x x y = some y ∧
    threeWayMerge x y x = some y := by
  refine ⟨?_, ?_, ?_⟩
  · simp [threeWayMerge]
  · by_cases h : x = y
    · subst h
      simp [threeWayMerge]
    · simp [threeWayMerge, h]
  · by_cases h : y = x
    · subst h
      simp [threeWayMerge]
    · simp [threeWayMerge, h]

/-- C7: both sides replacing the same leading character differently is a
conflict. -/
theorem threeWayMerge_conflict_same_anchor :
    threeWayMerge "abc" "Xbc" "Ybc" = none := by decide

/-- C8: edits at disjoint positions compose. -/
theorem threeWayMerge_disjoint_edits :
    threeWayMerge "abc" "Xbc" "abY" = some "XbY" := by decide


/-! ### Merkle tree builder (`src/tree.ts` lines 48-128) -/

/-- Modelled digest for `sha1Hex` of `src/tree.ts`: SHA-1 is a fixed
deterministic function, collision-free on every input pair arising here,
so the model keeps the (tagged) preimage: two digests are equal exactly
when the digested strings are equal. -/
def sha1Hex (s : String) : String := "sha1:" ++ s

/-- ``const currentDirPath = 0 < node.path.length ? `${node.path}/` : ""``
followed by appending a segment. -/
def childFull (nodePath seg : String) : String :=
  if 0 < nodePath.length then nodePath ++ "/" ++ seg else seg

/-- `path.split("/")` on strings (JavaScript `String.prototype.split`
with a single-character separator). -/
def splitSegs : List Char → List (List Char)
  | [] => [[]]
  | c :: rest =>
      match splitSegs rest with
      | h :: t => if c = '/' then [] :: h :: t else (c :: h) :: t
      | [] => [[c]]

/-- `path.split("/")`, see `splitSegs`. -/
def splitOnSlash (s : String) : List String :=
  (splitSegs s.toList).map (fun l => String.mk l)

/-- Lexicographic character order on strings: the model of the
`localeCompare` comparator (a fixed total order on strings). -/
def charListLe : List Char → List Char → Bool
  | [], _ => true
  | _ :: _, [] => false
  | a :: as, b :: bs =>
      if a < b then true else if b < a then false else charListLe as bs

/-- `a.localeCompare(b) ≤ 0`, see `charListLe`. -/
def strLe (a b : String) : Bool := charListLe a.toList b.toList

/-- Insert into a sorted list, before the first element not strictly
below the new one (the new element goes in front of equals, which makes
`insertionSortBy` stable). -/
def orderedInsertBy (le : α → α → Bool) (a : α) : List α → List α
  | [] => [a]
  | b :: l => if le a b then a :: b :: l else b :: orderedInsertBy le a l

/-- Stable sort: the model of JavaScript `Array.prototype.sort`, which is
required to be stable.  A stable sort is uniquely determined by the
comparator and the input order, so any stable algorithm is faithful. -/
def insertionSortBy (le : α → α → Bool) : List α → List α
  | [] => []
  | a :: l => orderedInsertBy le a (insertionSortBy le l)

/-- The `localeCompare` sort of children by path
(`children.sort((a, b) => a.path.localeCompare(b.path))`). -/
def sortByPath (ch : List MerkleNode) : List MerkleNode :=
  insertionSortBy (fun a b => strLe a.path b.path) ch

/-- `MerkleTreeBuilder.calcDirHash` (`src/tree.ts` lines 65-72): digest
of the sorted `"path:hash"` child strings joined by `"|"`. -/
def calcDirHash (ch : List MerkleNode) : String :=
  sha1Hex (String.intercalate "|"
    ((sortByPath ch).map (fun c => c.path ++ ":" ++ c.hash)))

/-- Replace the first child whose path is `full` (the source mutates the
node found by `children.find` in place). -/
def replaceFirstByPath : List MerkleNode → String → MerkleNode →
    List MerkleNode
  | [], _, _ => []
  | c :: cs, full, newNode =>
      if c.path == full then newNode :: cs
      else c :: replaceFirstByPath cs full newNode

/-- `appendChild` of `MerkleTreeBuilder.buildTree` (`src/tree.ts` lines
82-109), on the segment list of the inserted path (`path.split("/")`;
re-splitting `splitted.slice(1).join("/")` gives back the tail, since
segments are slash-free).  A one-segment path becomes a file child; for a
longer path, the first child whose path matches is reused when it is a
directory, otherwise (`!found || found.children === null`) a fresh
directory child is pushed at the end. -/
def appendChild : List String → String → List MerkleNode → List MerkleNode
  | [], _, children => children
  | [b], nodePath, children =>
      children ++ [MerkleNode.file (childFull nodePath b) ""]
  | s :: s2 :: rest, nodePath, children =>
      match children.find? (fun v => v.path == childFull nodePath s) with
      | some (MerkleNode.dir p h ch) =>
          replaceFirstByPath children (childFull nodePath s)
            (MerkleNode.dir p h
              (appendChild (s2 :: rest) (childFull nodePath s) ch))
      | _ =>
          children ++
            [MerkleNode.dir (childFull nodePath s) ""
              (appendChild (s2 :: rest) (childFull nodePath s) [])]

/-- The stable depth sort
`files.sort((a, b) => a.split("/").length - b.split("/").length)`
(`src/tree.ts` lines 78-80). -/
def depthSorted (files : List String) : List String :=
  insertionSortBy
    (fun a b => (splitOnSlash a).length ≤ (splitOnSlash b).length) files

/-- The skeleton phase of `MerkleTreeBuilder.buildTree`: the root's
children after all `appendChild` insertions (the insertions run in
depth-sorted order; each `appendChild` mutates the tree synchronously
before its first `await`, so `Promise.all` over the mapped paths performs
them sequentially). -/
def buildSkeleton (files : List String) : List MerkleNode :=
  (depthSorted files).foldl
    (fun children p => appendChild (splitOnSlash p) "" children) []

/-- `calcHashRecursive` (`src/tree.ts` lines 113-123): files get
`getHashFunc(path)` when their hash is still empty; directories sort
their children in place, hash them recursively, then take
`calcDirHash`.  The `fuel` argument (strictly decreasing tree depth
bound) only makes the recursion structural; `buildTree` supplies fuel
that cannot run out. -/
def calcHashF (hashOf : String → String) :
    Nat → MerkleNode → MerkleNode
  | 0, n => n
  | _ + 1, .file p h => .file p (if h.length == 0 then hashOf p else h)
  | fuel + 1, .dir p _ ch =>
      let ch' := (sortByPath ch).map (calcHashF hashOf fuel)
      .dir p (calcDirHash ch') ch'

/-- `MerkleTreeBuilder.buildTree` (`src/tree.ts` lines 74-127): build the
skeleton from the depth-sorted paths, then hash bottom-up. -/
def buildTree (files : List String) (hashOf : String → String) :
    MerkleNode :=
  let children := buildSkeleton files
  calcHashF hashOf (nodeWeight (.dir "" "" children)) (.dir "" "" children)

/-- C3 counterexample: `["a", "a/b", "a/c"]` and its permutation
`["a", "a/c", "a/b"]` are lists of distinct relative paths, yet produce
different root hashes: because `a` is both a file and a directory prefix,
`children.find` keeps matching the file child, so *two* sibling
directory nodes named `a` are created, and the stable path sort leaves
them in insertion order. -/
theorem buildTree_root_hash_order_dependent :
    (buildTree ["a", "a/b", "a/c"] (fun p => "h:" ++ p)).hash ≠
      (buildTree ["a", "a/c", "a/b"] (fun p => "h:" ++ p)).hash ∧
    List.Perm ["a", "a/c", "a/b"] ["a", "a/b", "a/c"] ∧
    (["a", "a/b", "a/c"] : List String).Nodup := by decide


/-! ### Order-independence of `buildTree` (infrastructure for C3)

The counterexample above exploits a path that is both a file and a
directory of other files.  On inputs where that cannot happen - no path
is a proper directory-ancestor of another, as with any real file listing
- `buildTree` is order-independent.  The development below proves it:
a canonical form of the skeleton (children sorted by path at every
level) is invariant under permutation of the input paths, and the
hashing pass only depends on that canonical form. -/

theorem mem_orderedInsertBy (le : α → α → Bool) (a x : α) (l : List α) :
    x ∈ orderedInsertBy le a l ↔ x = a ∨ x ∈ l := by
  induction l with
  | nil => simp [orderedInsertBy]
  | cons b t ih =>
      by_cases h : le a b = true
      · simp [orderedInsertBy, h]
      · simp only [orderedInsertBy, if_neg h, List.mem_cons, ih]
        tauto

theorem perm_orderedInsertBy (le : α → α → Bool) (a : α) (l : List α) :
    (orderedInsertBy le a l).Perm (a :: l) := by
  induction l with
  | nil => simp [orderedInsertBy]
  | cons b t ih =>
      by_cases h : le a b = true
      · simp [orderedInsertBy, h]
      · rw [orderedInsertBy, if_neg h]
        exact (ih.cons b).trans (List.Perm.swap a b t)

theorem perm_insertionSortBy (le : α → α → Bool) (l : List α) :
    (insertionSortBy le l).Perm l := by
  induction l with
  | nil => simp [insertionSortBy]
  | cons a t ih =>
      exact (perm_orderedInsertBy le a (insertionSortBy le t)).trans
        (ih.cons a)

theorem pairwise_orderedInsertBy (le : α → α → Bool)
    (htot : ∀ a b, le a b = true ∨ le b a = true)
    (htrans : ∀ a b c, le a b = true → le b c = true → le a c = true)
    (a : α) (l : List α)
    (hl : l.Pairwise (fun x y => le x y = true)) :
    (orderedInsertBy le a l).Pairwise (fun x y => le x y = true) := by
  induction l with
  | nil => simp [orderedInsertBy]
  | cons b t ih =>
      rcases List.pairwise_cons.mp hl with ⟨hb, ht⟩
      by_cases h : le a b = true
      · rw [orderedInsertBy, if_pos h]
        refine List.pairwise_cons.mpr ⟨?_, hl⟩
        intro y hy
        rcases List.mem_cons.mp hy with rfl | hyt
        · exact h
        · exact htrans a b y h (hb y hyt)
      · rw [orderedInsertBy, if_neg h]
        refine List.pairwise_cons.mpr ⟨?_, ih ht⟩
        intro y hy
        rcases (mem_orderedInsertBy le a y t).mp hy with hya | hyt
        · subst hya
          rcases htot y b with hab | hba
          · exact absurd hab h
          · exact hba
        · exact hb y hyt

theorem pairwise_insertionSortBy (le : α → α → Bool)
    (htot : ∀ a b, le a b = true ∨ le b a = true)
    (htrans : ∀ a b c, le a b = true → le b c = true → le a c = true)
    (l : List α) :
    (insertionSortBy le l).Pairwise (fun x y => le x y = true) := by
  induction l with
  | nil => simp [insertionSortBy]
  | cons a t ih =>
      exact pairwise_orderedInsertBy le htot htrans a _ ih

theorem insertionSortBy_sorted_id (le : α → α → Bool) (l : List α)
    (hl : l.Pairwise (fun x y => le x y = true)) :
    insertionSortBy le l = l := by
  induction l with
  | nil => rfl
  | cons a t ih =>
      rcases List.pairwise_cons.mp hl with ⟨ha, ht⟩
      rw [insertionSortBy, ih ht]
      cases t with
      | nil => rfl
      | cons b t' =>
          rw [orderedInsertBy, if_pos (ha b (List.mem_cons_self b t'))]

theorem orderedInsertBy_map (le : α → α → Bool) (le' : β → β → Bool)
    (f : α → β) (hf : ∀ a b, le' (f a) (f b) = le a b) (a : α)
    (l : List α) :
    orderedInsertBy le' (f a) (l.map f) = (orderedInsertBy le a l).map f := by
  induction l with
  | nil => rfl
  | cons b t ih =>
      by_cases h : le a b = true
      · simp [orderedInsertBy, hf, h]
      · simp only [List.map_cons, orderedInsertBy, hf, if_neg h, ih]

theorem insertionSortBy_map (le : α → α → Bool) (le' : β → β → Bool)
    (f : α → β) (hf : ∀ a b, le' (f a) (f b) = le a b) (l : List α) :
    insertionSortBy le' (l.map f) = (insertionSortBy le l).map f := by
  induction l with
  | nil => rfl
  | cons a t ih =>
      rw [List.map_cons, insertionSortBy, ih,
        orderedInsertBy_map le le' f hf, insertionSortBy]

theorem orderedInsertBy_map_congr (le : α → α → Bool) (g : α → β)
    (kle : β → β → Bool) (hk : ∀ a b, le a b = kle (g a) (g b))
    (a₁ a₂ : α) (l₁ l₂ : List α) (ha : g a₁ = g a₂)
    (hl : l₁.map g = l₂.map g) :
    (orderedInsertBy le a₁ l₁).map g = (orderedInsertBy le a₂ l₂).map g := by
  induction l₁ generalizing l₂ with
  | nil =>
      cases l₂ with
      | nil => simpa [orderedInsertBy] using ha
      | cons b t => simp at hl
  | cons b₁ t₁ ih =>
      cases l₂ with
      | nil => simp at hl
      | cons b₂ t₂ =>
          simp only [List.map_cons, List.cons.injEq] at hl
          have hle : le a₁ b₁ = le a₂ b₂ := by
            rw [hk, hk, ha, hl.1]
          by_cases h : le a₁ b₁ = true
          · rw [orderedInsertBy, if_pos h, orderedInsertBy,
              if_pos (hle ▸ h)]
            simp only [List.map_cons, List.cons.injEq]
            exact ⟨ha, hl.1, hl.2⟩
          · rw [orderedInsertBy, if_neg h, orderedInsertBy,
              if_neg (hle ▸ h)]
            simp only [List.map_cons, List.cons.injEq]
            exact ⟨hl.1, ih t₂ hl.2⟩

theorem insertionSortBy_map_congr (le : α → α → Bool) (g : α → β)
    (kle : β → β → Bool) (hk : ∀ a b, le a b = kle (g a) (g b))
    (l₁ l₂ : List α) (hl : l₁.map g = l₂.map g) :
    (insertionSortBy le l₁).map g = (insertionSortBy le l₂).map g := by
  induction l₁ generalizing l₂ with
  | nil =>
      cases l₂ with
      | nil => rfl
      | cons b t => simp at hl
  | cons a₁ t₁ ih =>
      cases l₂ with
      | nil => simp at hl
      | cons a₂ t₂ =>
          simp only [List.map_cons, List.cons.injEq] at hl
          rw [insertionSortBy, insertionSortBy]
          exact orderedInsertBy_map_congr le g
            kle hk a₁ a₂ _ _ hl.1 (ih t₂ hl.2)


theorem charListLe_total (a : List Char) : ∀ b : List Char,
    charListLe a b = true ∨ charListLe b a = true := by
  induction a with
  | nil => intro b; left; rfl
  | cons x xs ih =>
      intro b
      cases b with
      | nil => right; rfl
      | cons y ys =>
          by_cases h1 : x < y
          · left; simp [charListLe, h1]
          · by_cases h2 : y < x
            · right; simp [charListLe, h2]
            · have hxy : x = y := le_antisymm (not_lt.mp h2) (not_lt.mp h1)
              subst hxy
              rcases ih ys with h | h
              · left; simp [charListLe, lt_irrefl, h]
              · right; simp [charListLe, lt_irrefl, h]

theorem charListLe_trans (a : List Char) : ∀ b c : List Char,
    charListLe a b = true → charListLe b c = true →
    charListLe a c = true := by
  induction a with
  | nil => intro b c _ _; rfl
  | cons x xs ih =>
      intro b c hab hbc
      cases b with
      | nil => simp [charListLe] at hab
      | cons y ys =>
          cases c with
          | nil => simp [charListLe] at hbc
          | cons z zs =>
              by_cases h1 : x < y
              · by_cases h2 : y < z
                · simp [charListLe, lt_trans h1 h2]
                · by_cases h3 : z < y
                  · simp [charListLe, h2, h3] at hbc
                  · have hyz : y = z :=
                      le_antisymm (not_lt.mp h3) (not_lt.mp h2)
                    subst hyz
                    simp [charListLe, h1]
              · by_cases h1' : y < x
                · simp [charListLe, h1, h1'] at hab
                · have hxy : x = y :=
                    le_antisymm (not_lt.mp h1') (not_lt.mp h1)
                  subst hxy
                  simp only [charListLe, lt_irrefl, if_false] at hab
                  by_cases h2 : x < z
                  · simp [charListLe, h2]
                  · by_cases h3 : z < x
                    · simp [charListLe, h2, h3] at hbc
                    · have hxz : x = z :=
                        le_antisymm (not_lt.mp h3) (not_lt.mp h2)
                      subst hxz
                      simp only [charListLe, lt_irrefl, if_false] at hbc ⊢
                      exact ih ys zs hab hbc

theorem charListLe_antisymm (a : List Char) : ∀ b : List Char,
    charListLe a b = true → charListLe b a = true → a = b := by
  induction a with
  | nil =>
      intro b _ hba
      cases b with
      | nil => rfl
      | cons y ys => simp [charListLe] at hba
  | cons x xs ih =>
      intro b hab hba
      cases b with
      | nil => simp [charListLe] at hab
      | cons y ys =>
          by_cases h1 : x < y
          · simp [charListLe, h1, asymm h1] at hba
          · by_cases h2 : y < x
            · simp [charListLe, h1, h2] at hab
            · have hxy : x = y := le_antisymm (not_lt.mp h2) (not_lt.mp h1)
              subst hxy
              simp only [charListLe, lt_irrefl, if_false] at hab hba
              rw [ih ys hab hba]

theorem strLe_total (a b : String) : strLe a b = true ∨ strLe b a = true :=
  charListLe_total a.toList b.toList

theorem strLe_trans {a b c : String} (hab : strLe a b = true)
    (hbc : strLe b c = true) : strLe a c = true :=
  charListLe_trans a.toList b.toList c.toList hab hbc

theorem strLe_antisymm {a b : String} (hab : strLe a b = true)
    (hba : strLe b a = true) : a = b := by
  have h := charListLe_antisymm a.toList b.toList hab hba
  apply String.ext
  simpa [String.toList] using h

/-- Sorted lists (by path) that are permutations of each other and have
duplicate-free paths are equal. -/
theorem sorted_keyNodup_perm_eq :
    ∀ (l₁ l₂ : List MerkleNode), l₁.Perm l₂ →
    l₁.Pairwise (fun x y => strLe x.path y.path = true) →
    l₂.Pairwise (fun x y => strLe x.path y.path = true) →
    (l₁.map MerkleNode.path).Nodup → l₁ = l₂ := by
  intro l₁
  induction l₁ with
  | nil =>
      intro l₂ hperm _ _ _
      exact (hperm.nil_eq).symm ▸ rfl
  | cons a t ih =>
      intro l₂ hperm h₁ h₂ hnd
      cases l₂ with
      | nil => exact absurd hperm.symm.nil_eq (by simp)
      | cons b t₂ =>
          rcases List.pairwise_cons.mp h₁ with ⟨ha, ht⟩
          rcases List.pairwise_cons.mp h₂ with ⟨hb, ht₂⟩
          by_cases hab : a = b
          · subst hab
            have htperm : t.Perm t₂ := hperm.cons_inv
            rw [ih t₂ htperm ht ht₂ (by
              simp only [List.map_cons, List.nodup_cons] at hnd
              exact hnd.2)]
          · have hbmem : b ∈ t := by
              have : b ∈ a :: t := hperm.symm.subset (List.mem_cons_self b t₂)
              rcases List.mem_cons.mp this with h | h
              · exact absurd h.symm hab
              · exact h
            have hamem : a ∈ t₂ := by
              have : a ∈ b :: t₂ := hperm.subset (List.mem_cons_self a t)
              rcases List.mem_cons.mp this with h | h
              · exact absurd h hab
              · exact h
            have hpath : a.path = b.path :=
              strLe_antisymm (ha b hbmem) (hb a hamem)
            simp only [List.map_cons, List.nodup_cons] at hnd
            exact absurd (hpath ▸ List.mem_map_of_mem MerkleNode.path hbmem)
              hnd.1

/-- `sortByPath` on permutation-equivalent child lists with
duplicate-free paths gives the same sorted list. -/
theorem sortByPath_perm_eq {l₁ l₂ : List MerkleNode} (hperm : l₁.Perm l₂)
    (hnd : (l₁.map MerkleNode.path).Nodup) :
    sortByPath l₁ = sortByPath l₂ := by
  have hp : (sortByPath l₁).Perm (sortByPath l₂) :=
    ((perm_insertionSortBy _ l₁).trans hperm).trans
      (perm_insertionSortBy _ l₂).symm
  refine sorted_keyNodup_perm_eq _ _ hp ?_ ?_ ?_
  · exact pairwise_insertionSortBy _ (fun a b => strLe_total a.path b.path)
      (fun a b c => strLe_trans) l₁
  · exact pairwise_insertionSortBy _ (fun a b => strLe_total a.path b.path)
      (fun a b c => strLe_trans) l₂
  · exact ((perm_insertionSortBy _ l₁).map MerkleNode.path).nodup_iff.mpr hnd


theorem nodeWeight_lt_of_mem {n : MerkleNode} {ch : List MerkleNode}
    (h : n ∈ ch) : nodeWeight n < listWeight ch := by
  induction ch with
  | nil => cases h
  | cons c cs ih =>
      rcases List.mem_cons.mp h with rfl | h'
      · simp only [listWeight]
        omega
      · have := ih h'
        simp only [listWeight]
        omega

/-- Canonical form of a skeleton: children sorted by path at every
level. -/
def canon : MerkleNode → MerkleNode
  | .file p h => .file p h
  | .dir p h ch =>
      .dir p h (sortByPath (ch.attach.map (fun c => canon c.1)))
termination_by n => nodeWeight n
decreasing_by
  have := nodeWeight_lt_of_mem c.2
  simp only [nodeWeight]
  omega

/-- Canonical form of a child list. -/
def canonL (ch : List MerkleNode) : List MerkleNode :=
  sortByPath (ch.map canon)

theorem canon_file (p h : String) : canon (.file p h) = .file p h := by
  rw [canon]

theorem canon_dir (p h : String) (ch : List MerkleNode) :
    canon (.dir p h ch) = .dir p h (canonL ch) := by
  rw [canon, canonL]
  congr 1
  congr 1
  rw [List.attach_map_val ch canon]

theorem canon_path (n : MerkleNode) : (canon n).path = n.path := by
  cases n with
  | file p h => rw [canon_file]
  | dir p h ch => rw [canon_dir]; rfl

theorem canon_hash (n : MerkleNode) : (canon n).hash = n.hash := by
  cases n with
  | file p h => rw [canon_file]
  | dir p h ch => rw [canon_dir]; rfl

theorem listWeight_perm {l₁ l₂ : List MerkleNode} (h : l₁.Perm l₂) :
    listWeight l₁ = listWeight l₂ := by
  induction h with
  | nil => rfl
  | cons x _ ih => simp only [listWeight, ih]
  | swap x y l => simp only [listWeight]; omega
  | trans _ _ ih₁ ih₂ => omega

theorem mnode_strong_ind (P : MerkleNode → Prop)
    (h : ∀ n, (∀ m, nodeWeight m < nodeWeight n → P m) → P n)
    (n : MerkleNode) : P n := by
  have H : ∀ k (m : MerkleNode), nodeWeight m < k → P m := by
    intro k
    induction k with
    | zero => intro m hm; omega
    | succ k ih => exact fun m hm => h m (fun m' hm' => ih m' (by omega))
  exact H (nodeWeight n + 1) n (by omega)

theorem listWeight_map_congr {f : MerkleNode → MerkleNode}
    {ch : List MerkleNode} (h : ∀ c ∈ ch, nodeWeight (f c) = nodeWeight c) :
    listWeight (ch.map f) = listWeight ch := by
  induction ch with
  | nil => rfl
  | cons c cs ih =>
      simp only [List.map_cons, listWeight, h c (List.mem_cons_self c cs),
        ih (fun x hx => h x (List.mem_cons_of_mem c hx))]

theorem nodeWeight_canon (n : MerkleNode) :
    nodeWeight (canon n) = nodeWeight n := by
  induction n using mnode_strong_ind with
  | h n ih =>
      cases n with
      | file p h => rw [canon_file]
      | dir p h ch =>
          rw [canon_dir]
          simp only [nodeWeight, canonL, sortByPath]
          rw [listWeight_perm (perm_insertionSortBy _ (ch.map canon)),
            listWeight_map_congr (fun c hc => ih c (by
              have := nodeWeight_lt_of_mem hc
              simp only [nodeWeight]
              omega))]

theorem listWeight_canonL (ch : List MerkleNode) :
    listWeight (canonL ch) = listWeight ch := by
  rw [canonL, sortByPath,
    listWeight_perm (perm_insertionSortBy _ (ch.map canon)),
    listWeight_map_congr (fun c _ => nodeWeight_canon c)]

/-- The node-order comparator factors through `(path, hash)` pairs. -/
theorem nodeLe_factor (a b : MerkleNode) :
    strLe a.path b.path =
      (fun x y : String × String => strLe x.1 y.1)
        (a.path, a.hash) (b.path, b.hash) := rfl

/-- The hashing pass only depends on the canonical form: hashing a tree
and hashing its canonical form give the same root path and root hash. -/
theorem calcHashF_canon (hashOf : String → String) :
    ∀ (fuel : Nat) (t : MerkleNode),
    (calcHashF hashOf fuel (canon t)).path =
      (calcHashF hashOf fuel t).path ∧
    (calcHashF hashOf fuel (canon t)).hash =
      (calcHashF hashOf fuel t).hash := by
  intro fuel
  induction fuel with
  | zero => exact fun t => ⟨canon_path t, canon_hash t⟩
  | succ fuel ih =>
      intro t
      cases t with
      | file p h => rw [canon_file]; exact ⟨rfl, rfl⟩
      | dir p h ch =>
          rw [canon_dir]
          show ((MerkleNode.dir p (calcDirHash _) _).path = _ ∧ _)
          have hsorted : sortByPath (canonL ch) = canonL ch :=
            insertionSortBy_sorted_id _ _
              (pairwise_insertionSortBy _
                (fun a b => strLe_total a.path b.path)
                (fun a b c => strLe_trans) (ch.map canon))
          have hcomm : canonL ch = (sortByPath ch).map canon := by
            rw [canonL, sortByPath, sortByPath]
            exact insertionSortBy_map _ _ canon
              (fun a b => by rw [canon_path, canon_path]) ch
          have hpoint :
              (((sortByPath (canonL ch)).map
                  (calcHashF hashOf fuel)).map
                (fun c => (c.path, c.hash))) =
              (((sortByPath ch).map (calcHashF hashOf fuel)).map
                (fun c => (c.path, c.hash))) := by
            rw [hsorted, hcomm, List.map_map, List.map_map, List.map_map]
            refine List.map_congr_left ?_
            intro c _
            simp only [Function.comp]
            exact Prod.ext ((ih c).1) ((ih c).2)
          have hstring : ∀ (Y Z : List MerkleNode),
              Y.map (fun c => (c.path, c.hash)) =
                Z.map (fun c => (c.path, c.hash)) →
              (sortByPath Y).map (fun c => c.path ++ ":" ++ c.hash) =
                (sortByPath Z).map (fun c => c.path ++ ":" ++ c.hash) := by
            intro Y Z hYZ
            have hmm : ∀ W : List MerkleNode,
                (sortByPath W).map (fun c => c.path ++ ":" ++ c.hash) =
                  ((sortByPath W).map (fun c => (c.path, c.hash))).map
                    (fun x => x.1 ++ ":" ++ x.2) := by
              intro W
              rw [List.map_map]
              rfl
            have h2 := insertionSortBy_map_congr
              (fun a b : MerkleNode => strLe a.path b.path)
              (fun c => (c.path, c.hash))
              (fun x y : String × String => strLe x.1 y.1)
              nodeLe_factor Y Z hYZ
            rw [hmm Y, hmm Z, sortByPath, sortByPath, h2]
          constructor
          · simp only [calcHashF, MerkleNode.path]
          · simp only [calcHashF, MerkleNode.hash]
            rw [calcDirHash, calcDirHash]
            congr 1
            congr 1
            exact hstring _ _ hpoint

/-- `q` is a strict ancestor (proper directory-wise prefix) of `r` as a
segment list. -/
def strictUnder (q r : List String) : Prop :=
  q.length < r.length ∧ r.take q.length = q

instance (q r : List String) : Decidable (strictUnder q r) := by
  unfold strictUnder
  infer_instance

/-- Well-formed multiset of segment lists: the segment lists of a real
file listing - pairwise distinct, nonempty, and none a strict ancestor
of another. -/
def SegWF (M : List (List String)) : Prop :=
  M.Nodup ∧ (∀ q ∈ M, q ≠ []) ∧
    M.Pairwise (fun q r => ¬ strictUnder q r ∧ ¬ strictUnder r q)

/-- Termination measure: total weight of a list of segment lists. -/
def segsWeight (M : List (List String)) : Nat :=
  (M.map (fun q => q.length + 1)).sum

/-- Head segment of a segment list (`""` for the empty list, which does
not occur for well-formed input). -/
def headStr : List String → String
  | [] => ""
  | a :: _ => a

/-- Heads of the multi-segment members, deduplicated: the names of the
subdirectories of the current directory. -/
def headsOf (M : List (List String)) : List String :=
  ((M.filter (fun q => 2 ≤ q.length)).map headStr).dedup

/-- Tails of the members with head `s`: the listing of subdirectory
`s`. -/
def groupTails (M : List (List String)) (s : String) : List (List String) :=
  (M.filter (fun q => 2 ≤ q.length && headStr q == s)).map
    (fun q => q.tail)

theorem mem_headsOf {M : List (List String)} {s : String} :
    s ∈ headsOf M ↔ ∃ q ∈ M, 2 ≤ q.length ∧ headStr q = s := by
  rw [headsOf, List.mem_dedup, List.mem_map]
  constructor
  · rintro ⟨q, hq, rfl⟩
    rcases List.mem_filter.mp hq with ⟨hqM, hlen⟩
    exact ⟨q, hqM, by simpa using hlen, rfl⟩
  · rintro ⟨q, hqM, hlen, rfl⟩
    exact ⟨q, List.mem_filter.mpr ⟨hqM, by simpa using hlen⟩, rfl⟩

theorem segsWeight_groupTails_le (M : List (List String)) (s : String) :
    segsWeight (groupTails M s) ≤ segsWeight M := by
  induction M with
  | nil => simp [groupTails, segsWeight]
  | cons q M' ih =>
      rw [groupTails, List.filter_cons]
      rw [groupTails] at ih
      by_cases hq : (2 ≤ q.length && headStr q == s) = true
      · rw [if_pos hq]
        have htail : q.tail.length ≤ q.length := by
          cases q <;> simp
        simp only [segsWeight, List.map_cons, List.sum_cons] at ih ⊢
        omega
      · rw [if_neg hq]
        simp only [segsWeight, List.map_cons, List.sum_cons] at ih ⊢
        omega

theorem segsWeight_groupTails_lt (M : List (List String)) (s : String)
    (hex : ∃ q ∈ M, 2 ≤ q.length ∧ headStr q = s) :
    segsWeight (groupTails M s) < segsWeight M := by
  induction M with
  | nil => simp at hex
  | cons q M' ih =>
      rw [groupTails, List.filter_cons]
      by_cases hq : (2 ≤ q.length && headStr q == s) = true
      · rw [if_pos hq]
        have hle := segsWeight_groupTails_le M' s
        rw [groupTails] at hle
        have hlen : 2 ≤ q.length := by
          simp only [Bool.and_eq_true, decide_eq_true_eq] at hq
          exact hq.1
        have htail : q.tail.length + 1 = q.length := by
          cases q with
          | nil => simp at hlen
          | cons a t => simp
        simp only [segsWeight, List.map_cons, List.sum_cons] at hle ⊢
        omega
      · rw [if_neg hq]
        have hex' : ∃ r ∈ M', 2 ≤ r.length ∧ headStr r = s := by
          obtain ⟨r, hr, hrlen, hrhead⟩ := hex
          rcases List.mem_cons.mp hr with rfl | hr'
          · exact absurd (by simp [hrlen, hrhead]) hq
          · exact ⟨r, hr', hrlen, hrhead⟩
        have hlt := ih hex'
        rw [groupTails] at hlt
        simp only [segsWeight, List.map_cons, List.sum_cons] at hlt ⊢
        omega

/-- The canonical skeleton of a well-formed listing, built directly from
the segment lists: files from the single-segment members, one directory
per distinct head of the multi-segment members, all sorted by path.
Visibly depends only on the order-insensitive content of `M`. -/
def canonGroup (d : String) (M : List (List String)) : List MerkleNode :=
  sortByPath
    ((M.filter (fun q => q.length == 1)).map
      (fun q => MerkleNode.file (childFull d (headStr q)) "") ++
     (headsOf M).attach.map (fun s =>
       MerkleNode.dir (childFull d s.1) ""
         (canonGroup (childFull d s.1) (groupTails M s.1))))
termination_by segsWeight M
decreasing_by
  exact segsWeight_groupTails_lt M s.1 (mem_headsOf.mp s.2)

/-- File children of `canonGroup`. -/
def fileNodesOf (d : String) (M : List (List String)) : List MerkleNode :=
  (M.filter (fun q => q.length == 1)).map
    (fun q => MerkleNode.file (childFull d (headStr q)) "")

/-- Directory children of `canonGroup`. -/
def dirNodesOf (d : String) (M : List (List String)) : List MerkleNode :=
  (headsOf M).map (fun s =>
    MerkleNode.dir (childFull d s) ""
      (canonGroup (childFull d s) (groupTails M s)))

theorem canonGroup_eq (d : String) (M : List (List String)) :
    canonGroup d M = sortByPath (fileNodesOf d M ++ dirNodesOf d M) := by
  rw [canonGroup, fileNodesOf, dirNodesOf]
  congr 2
  exact List.attach_map_coe (headsOf M)
    (fun x => MerkleNode.dir (childFull d x) ""
      (canonGroup (childFull d x) (groupTails M x)))

theorem childFull_inj {d b b' : String}
    (h : childFull d b = childFull d b') : b = b' := by
  rw [childFull, childFull] at h
  by_cases hd : 0 < d.length
  · rw [if_pos hd, if_pos hd] at h
    apply String.ext
    have := congrArg String.data h
    simpa [String.data_append] using this
  · rwa [if_neg hd, if_neg hd] at h

theorem headStr_cons_tail {q : List String} (h : q ≠ []) :
    headStr q :: q.tail = q := by
  cases q with
  | nil => exact absurd rfl h
  | cons a t => rfl

theorem singleton_of_length_one {q : List String} (h : q.length = 1) :
    q = [headStr q] := by
  cases q with
  | nil => simp at h
  | cons a t =>
      cases t with
      | nil => rfl
      | cons b t' => simp at h

theorem strictUnder_cons {s : String} {t t' : List String} :
    strictUnder (s :: t) (s :: t') ↔ strictUnder t t' := by
  unfold strictUnder
  simp only [List.length_cons, Nat.add_lt_add_iff_right,
    List.take_succ_cons, List.cons.injEq, true_and]

theorem SegWF_groupTails {M : List (List String)} (h : SegWF M)
    (s : String) : SegWF (groupTails M s) := by
  obtain ⟨hnd, hne, hpw⟩ := h
  have hmem : ∀ q ∈ M.filter (fun q => 2 ≤ q.length && headStr q == s),
      q = s :: q.tail := by
    intro q hq
    rcases List.mem_filter.mp hq with ⟨hqM, hcond⟩
    simp only [Bool.and_eq_true, decide_eq_true_eq, beq_iff_eq] at hcond
    have : q ≠ [] := by
      intro hnil
      rw [hnil] at hcond
      simp at hcond
    rw [← hcond.2, headStr_cons_tail this]
  refine ⟨?_, ?_, ?_⟩
  · rw [groupTails]
    refine (hnd.filter _).map_on ?_
    intro q₁ h₁ q₂ h₂ htl
    rw [hmem q₁ h₁, hmem q₂ h₂, htl]
  · intro t ht
    rw [groupTails] at ht
    rcases List.mem_map.mp ht with ⟨q, hq, rfl⟩
    rcases List.mem_filter.mp hq with ⟨-, hcond⟩
    simp only [Bool.and_eq_true, decide_eq_true_eq, beq_iff_eq] at hcond
    intro hnil
    have := congrArg List.length hnil
    simp at this
    omega
  · rw [groupTails, List.pairwise_map]
    have hpwf := hpw.filter (fun q => 2 ≤ q.length && headStr q == s)
    refine hpwf.imp_of_mem ?_
    intro q r hq hr hrel
    constructor
    · intro hcon
      refine hrel.1 ?_
      rw [hmem q hq, hmem r hr]
      exact strictUnder_cons.mpr hcon
    · intro hcon
      refine hrel.2 ?_
      rw [hmem q hq, hmem r hr]
      exact strictUnder_cons.mpr hcon

theorem canonGroup_paths_nodup {M : List (List String)} (h : SegWF M)
    (d : String) :
    (((fileNodesOf d M) ++ (dirNodesOf d M)).map MerkleNode.path).Nodup := by
  obtain ⟨hnd, hne, hpw⟩ := h
  rw [List.map_append, List.nodup_append]
  refine ⟨?_, ?_, ?_⟩
  · rw [fileNodesOf, List.map_map]
    refine (hnd.filter _).map_on ?_
    intro q₁ h₁ q₂ h₂ heq
    simp only [Function.comp, MerkleNode.path] at heq
    have hlen₁ : q₁.length = 1 := by
      simpa using (List.mem_filter.mp h₁).2
    have hlen₂ : q₂.length = 1 := by
      simpa using (List.mem_filter.mp h₂).2
    rw [singleton_of_length_one hlen₁, singleton_of_length_one hlen₂,
      childFull_inj heq]
  · rw [dirNodesOf, List.map_map]
    refine (List.nodup_dedup _).map_on ?_
    intro s₁ h₁ s₂ h₂ heq
    simp only [Function.comp, MerkleNode.path] at heq
    exact childFull_inj heq
  · intro x hx hx'
    rw [fileNodesOf, List.map_map] at hx
    rw [dirNodesOf, List.map_map] at hx'
    rcases List.mem_map.mp hx with ⟨q, hq, hqx⟩
    rcases List.mem_map.mp hx' with ⟨t, ht, htx⟩
    simp only [Function.comp, MerkleNode.path] at hqx htx
    have hst : headStr q = t := childFull_inj (hqx.trans htx.symm)
    rcases List.mem_filter.mp hq with ⟨hqM, hqlen⟩
    have hqlen' : q.length = 1 := by simpa using hqlen
    rcases mem_headsOf.mp ht with ⟨r, hrM, hrlen, hrhead⟩
    have hqr : q ≠ r := by
      intro hqr
      rw [hqr] at hqlen'
      omega
    have hsu : strictUnder q r := by
      constructor
      · omega
      · rw [hqlen', singleton_of_length_one hqlen']
        have : r = headStr r :: r.tail :=
          (headStr_cons_tail (by
            intro hnil
            rw [hnil] at hrlen
            simp at hrlen)).symm
        rw [this, List.take_succ_cons, List.take_zero, hrhead, hst]
    have hsym : Symmetric (fun q r : List String =>
        ¬ strictUnder q r ∧ ¬ strictUnder r q) := by
      intro a b hab
      exact ⟨hab.2, hab.1⟩
    exact (hpw.forall hsym hqM hrM hqr).1 hsu

theorem canonGroup_perm (n : Nat) :
    ∀ (M₁ M₂ : List (List String)) (d : String), segsWeight M₁ ≤ n →
    M₁.Perm M₂ → SegWF M₁ → canonGroup d M₁ = canonGroup d M₂ := by
  induction n with
  | zero =>
      intro M₁ M₂ d hw hperm _
      cases M₁ with
      | nil =>
          rw [hperm.nil_eq.symm]
      | cons q M' =>
          exfalso
          simp only [segsWeight, List.map_cons, List.sum_cons] at hw
          omega
  | succ n ih =>
      intro M₁ M₂ d hw hperm hwf
      rw [canonGroup_eq, canonGroup_eq]
      apply sortByPath_perm_eq
      · apply List.Perm.append
        · exact ((hperm.filter _).map _)
        · have hheads : (headsOf M₁).Perm (headsOf M₂) :=
            ((hperm.filter _).map headStr).dedup
          have hfun : ∀ s ∈ headsOf M₁,
              MerkleNode.dir (childFull d s) ""
                (canonGroup (childFull d s) (groupTails M₁ s)) =
              MerkleNode.dir (childFull d s) ""
                (canonGroup (childFull d s) (groupTails M₂ s)) := by
            intro s hs
            congr 1
            have hlt := segsWeight_groupTails_lt M₁ s (mem_headsOf.mp hs)
            exact ih (groupTails M₁ s) (groupTails M₂ s) _
              (by omega) ((hperm.filter _).map _)
              (SegWF_groupTails hwf s)
          rw [dirNodesOf, dirNodesOf, List.map_congr_left hfun]
          exact hheads.map _
      · exact canonGroup_paths_nodup hwf d


theorem canonL_nil : canonL [] = [] := rfl

theorem canonGroup_nil (d : String) : canonGroup d [] = [] := by
  rw [canonGroup_eq]
  rfl

theorem groupTails_append (M N : List (List String)) (s : String) :
    groupTails (M ++ N) s = groupTails M s ++ groupTails N s := by
  rw [groupTails, groupTails, groupTails, List.filter_append,
    List.map_append]

theorem groupTails_single_short (b s : String) :
    groupTails [[b]] s = [] := by
  rw [groupTails]
  rfl

theorem groupTails_single_long {q : List String} (h : 2 ≤ q.length)
    (s : String) (hq : headStr q = s) : groupTails [q] s = [q.tail] := by
  rw [groupTails, List.filter_cons, if_pos (by simp [h, hq])]
  rfl

theorem groupTails_single_other {q : List String} (s : String)
    (hq : headStr q ≠ s) : groupTails [q] s = [] := by
  rw [groupTails, List.filter_cons, if_neg (by simp [hq])]
  rfl

theorem groupTails_empty_of_not_head {M : List (List String)} {s : String}
    (h : s ∉ headsOf M) : groupTails M s = [] := by
  rw [groupTails, List.map_eq_nil, List.filter_eq_nil]
  intro q hq hcond
  simp only [Bool.and_eq_true, decide_eq_true_eq, beq_iff_eq] at hcond
  exact h (mem_headsOf.mpr ⟨q, hq, hcond.1, hcond.2⟩)

theorem headsOf_append (M N : List (List String)) :
    headsOf (M ++ N) =
      (((M.filter (fun q => 2 ≤ q.length)).map headStr) ++
       ((N.filter (fun q => 2 ≤ q.length)).map headStr)).dedup := by
  rw [headsOf, List.filter_append, List.map_append]

theorem headsOf_append_short (M : List (List String)) (b : String) :
    headsOf (M ++ [[b]]) = headsOf M := by
  rw [headsOf_append, headsOf]
  congr 1
  rw [show List.filter (fun q => decide (2 ≤ q.length)) [[b]] = [] from rfl]
  rw [List.map_nil, List.append_nil]

theorem filter_one_append_short (M : List (List String)) (b : String) :
    (M ++ [[b]]).filter (fun q => q.length == 1) =
      M.filter (fun q => q.length == 1) ++ [[b]] := by
  rw [List.filter_append]
  rfl

theorem filter_one_append_long (M : List (List String))
    {q : List String} (h : 2 ≤ q.length) :
    (M ++ [q]).filter (fun q => q.length == 1) =
      M.filter (fun q => q.length == 1) := by
  rw [List.filter_append, List.filter_cons,
    if_neg (by simp; omega)]
  rw [List.filter_nil, List.append_nil]

theorem dedup_append_not_mem {X : List String} {s : String} (h : s ∉ X) :
    (X ++ [s]).dedup.Perm (X.dedup ++ [s]) := by
  refine (List.perm_ext_iff_of_nodup (List.nodup_dedup _) ?_).mpr ?_
  · rw [List.nodup_append]
    refine ⟨List.nodup_dedup _, List.nodup_singleton s, ?_⟩
    intro a ha ha'
    rw [List.mem_dedup] at ha
    rw [List.mem_singleton] at ha'
    exact h (ha' ▸ ha)
  · intro a
    simp [List.mem_dedup, or_comm]

theorem dedup_append_mem {X : List String} {s : String} (h : s ∈ X) :
    (X ++ [s]).dedup.Perm X.dedup := by
  refine (List.perm_ext_iff_of_nodup (List.nodup_dedup _)
    (List.nodup_dedup _)).mpr ?_
  intro a
  simp only [List.mem_dedup, List.mem_append, List.mem_singleton]
  constructor
  · rintro (ha | rfl)
    · exact ha
    · exact h
  · exact fun ha => Or.inl ha

theorem find?_decomp {p : MerkleNode → Bool} {l : List MerkleNode}
    {c : MerkleNode} (h : l.find? p = some c) :
    ∃ pre post, l = pre ++ c :: post ∧ ∀ x ∈ pre, p x = false := by
  induction l with
  | nil => simp at h
  | cons a t ih =>
      by_cases ha : p a = true
      · rw [List.find?_cons_of_pos _ ha] at h
        cases h
        exact ⟨[], t, rfl, by simp⟩
      · rw [List.find?_cons_of_neg _ (by simpa using ha)] at h
        obtain ⟨pre, post, rfl, hpre⟩ := ih h
        refine ⟨a :: pre, post, rfl, ?_⟩
        intro x hx
        rcases List.mem_cons.mp hx with rfl | hx'
        · simpa using ha
        · exact hpre x hx'

theorem replaceFirstByPath_decomp (pre post : List MerkleNode)
    (c n' : MerkleNode) (full : String) (hc : (c.path == full) = true)
    (hpre : ∀ x ∈ pre, (x.path == full) = false) :
    replaceFirstByPath (pre ++ c :: post) full n' = pre ++ n' :: post := by
  induction pre with
  | nil =>
      rw [List.nil_append, replaceFirstByPath, if_pos hc, List.nil_append]
  | cons a t ih =>
      rw [List.cons_append, replaceFirstByPath,
        if_neg (by simp [hpre a (List.mem_cons_self a t)]),
        ih (fun x hx => hpre x (List.mem_cons_of_mem a hx)),
        List.cons_append]

theorem SegWF_append_elim {M : List (List String)} {q₀ : List String}
    (h : SegWF (M ++ [q₀])) :
    SegWF M ∧ q₀ ∉ M ∧ q₀ ≠ [] ∧
      ∀ q ∈ M, ¬ strictUnder q q₀ ∧ ¬ strictUnder q₀ q := by
  obtain ⟨hnd, hne, hpw⟩ := h
  rw [List.nodup_append] at hnd
  rw [List.pairwise_append] at hpw
  refine ⟨⟨hnd.1, fun q hq => hne q (List.mem_append_left _ hq), hpw.1⟩,
    ?_, hne q₀ (List.mem_append_right _ (List.mem_singleton_self q₀)), ?_⟩
  · intro hq
    exact hnd.2.2 hq (List.mem_singleton_self q₀)
  · intro q hq
    exact hpw.2.2 q hq q₀ (List.mem_singleton_self q₀)

theorem SegWF_append_intro {M : List (List String)} {q₀ : List String}
    (h : SegWF M) (hnotin : q₀ ∉ M) (hne : q₀ ≠ [])
    (hrel : ∀ q ∈ M, ¬ strictUnder q q₀ ∧ ¬ strictUnder q₀ q) :
    SegWF (M ++ [q₀]) := by
  obtain ⟨hnd, hne', hpw⟩ := h
  refine ⟨?_, ?_, ?_⟩
  · rw [List.nodup_append]
    exact ⟨hnd, List.nodup_singleton q₀, by
      intro a ha ha'
      rw [List.mem_singleton] at ha'
      exact hnotin (ha' ▸ ha)⟩
  · intro q hq
    rcases List.mem_append.mp hq with hq' | hq'
    · exact hne' q hq'
    · rw [List.mem_singleton] at hq'
      exact hq' ▸ hne
  · rw [List.pairwise_append]
    refine ⟨hpw, List.pairwise_singleton _ _, ?_⟩
    intro q hq r hr
    rw [List.mem_singleton] at hr
    exact hr ▸ hrel q hq

theorem paths_map_canon (ch : List MerkleNode) :
    (ch.map canon).map MerkleNode.path = ch.map MerkleNode.path := by
  rw [List.map_map]
  exact List.map_congr_left fun c _ => canon_path c

theorem canonL_perm_map (ch : List MerkleNode) :
    (canonL ch).Perm (ch.map canon) := by
  rw [canonL, sortByPath]
  exact perm_insertionSortBy _ _


theorem canon_mem_of_mem {ch : List MerkleNode} {S : List MerkleNode}
    (hch : canonL ch = S) {c : MerkleNode} (hc : c ∈ ch) : canon c ∈ S := by
  rw [← hch]
  exact (canonL_perm_map ch).symm.subset (List.mem_map_of_mem canon hc)

theorem mem_fileNodes_or_dirNodes {M : List (List String)} {d : String}
    {y : MerkleNode} (hy : y ∈ fileNodesOf d M ++ dirNodesOf d M) :
    (∃ q ∈ M, q.length = 1 ∧
      y = MerkleNode.file (childFull d (headStr q)) "") ∨
    (∃ x ∈ headsOf M, y = MerkleNode.dir (childFull d x) ""
      (canonGroup (childFull d x) (groupTails M x))) := by
  rcases List.mem_append.mp hy with hy' | hy'
  · left
    rw [fileNodesOf] at hy'
    rcases List.mem_map.mp hy' with ⟨q, hq, rfl⟩
    rcases List.mem_filter.mp hq with ⟨hqM, hqlen⟩
    exact ⟨q, hqM, by simpa using hqlen, rfl⟩
  · right
    rw [dirNodesOf] at hy'
    rcases List.mem_map.mp hy' with ⟨x, hx, rfl⟩
    exact ⟨x, hx, rfl⟩

theorem mem_groupTails {M : List (List String)} {s : String}
    {t : List String} :
    t ∈ groupTails M s ↔ ∃ q ∈ M, 2 ≤ q.length ∧ headStr q = s ∧
      q.tail = t := by
  rw [groupTails]
  constructor
  · intro ht
    rcases List.mem_map.mp ht with ⟨q, hq, rfl⟩
    rcases List.mem_filter.mp hq with ⟨hqM, hcond⟩
    simp only [Bool.and_eq_true, decide_eq_true_eq, beq_iff_eq] at hcond
    exact ⟨q, hqM, hcond.1, hcond.2, rfl⟩
  · rintro ⟨q, hqM, hlen, hhead, rfl⟩
    exact List.mem_map_of_mem _
      (List.mem_filter.mpr ⟨hqM, by simp [hlen, hhead]⟩)

theorem groupTails_reconstruct {M : List (List String)} {s : String}
    {t : List String} (ht : t ∈ groupTails M s) : (s :: t) ∈ M := by
  rcases mem_groupTails.mp ht with ⟨q, hqM, hlen, hhead, htail⟩
  have hq : q = s :: t := by
    rw [← hhead, ← htail]
    exact (headStr_cons_tail (by
      intro hnil
      rw [hnil] at hlen
      simp at hlen)).symm
  exact hq ▸ hqM

theorem filter_two_seg (s s2 : String) (rest' : List String) :
    List.filter (fun q => decide (2 ≤ q.length)) [s :: s2 :: rest'] =
      [s :: s2 :: rest'] := by
  rw [List.filter_cons,
    if_pos (by simp only [decide_eq_true_eq, List.length_cons]; omega),
    List.filter_nil]

/-- Characterization of one `appendChild` insertion on canonical forms:
inserting a fresh, ancestor-free path into a skeleton whose canonical
form is `canonGroup d M` produces a skeleton whose canonical form is
`canonGroup d (M ++ [segs])`. -/
theorem canonL_appendChild (segs : List String) :
    ∀ (d : String) (M : List (List String)) (ch : List MerkleNode),
    SegWF (M ++ [segs]) → canonL ch = canonGroup d M →
    canonL (appendChild segs d ch) = canonGroup d (M ++ [segs]) := by
  induction segs with
  | nil =>
      intro d M ch hwf hch
      exact absurd rfl (SegWF_append_elim hwf).2.2.1
  | cons s rest ih =>
      intro d M ch hwf hch
      obtain ⟨hwfM, hnotin, -, hrel⟩ := SegWF_append_elim hwf
      have hFDperm : (fileNodesOf d M ++ dirNodesOf d M).Perm
          (ch.map canon) := by
        have h2 : (sortByPath (fileNodesOf d M ++ dirNodesOf d M)).Perm
            (fileNodesOf d M ++ dirNodesOf d M) := by
          rw [sortByPath]
          exact perm_insertionSortBy _ _
        refine h2.symm.trans ?_
        rw [← canonGroup_eq, ← hch]
        exact canonL_perm_map ch
      cases rest with
      | nil =>
          rw [show appendChild [s] d ch =
            ch ++ [MerkleNode.file (childFull d s) ""] from rfl]
          rw [canonGroup_eq, canonL, List.map_append,
            show List.map canon [MerkleNode.file (childFull d s) ""] =
              [MerkleNode.file (childFull d s) ""] by
              rw [List.map_cons, canon_file, List.map_nil]]
          have hF : fileNodesOf d (M ++ [[s]]) = fileNodesOf d M ++
              [MerkleNode.file (childFull d s) ""] := by
            rw [fileNodesOf, filter_one_append_short, List.map_append,
              fileNodesOf]
            rfl
          have hD : dirNodesOf d (M ++ [[s]]) = dirNodesOf d M := by
            rw [dirNodesOf, dirNodesOf, headsOf_append_short]
            refine List.map_congr_left ?_
            intro x _
            rw [groupTails_append, groupTails_single_short,
              List.append_nil]
          have hndFD := canonGroup_paths_nodup hwf d
          refine (sortByPath_perm_eq ?_ ?_).symm
          · rw [hF, hD, List.append_assoc]
            refine (List.Perm.append_left _ List.perm_append_comm).trans ?_
            rw [← List.append_assoc]
            exact hFDperm.append_right _
          · exact hndFD
      | cons s2 rest' =>
          cases hfind : ch.find? (fun v => v.path == childFull d s) with
          | none =>
              have happ : appendChild (s :: s2 :: rest') d ch =
                  ch ++ [MerkleNode.dir (childFull d s) ""
                    (appendChild (s2 :: rest') (childFull d s) [])] := by
                rw [appendChild, hfind]
              have hs : s ∉ headsOf M := by
                intro hsmem
                have hymem : MerkleNode.dir (childFull d s) ""
                    (canonGroup (childFull d s) (groupTails M s)) ∈
                    fileNodesOf d M ++ dirNodesOf d M :=
                  List.mem_append_right _ (by
                    rw [dirNodesOf]
                    exact List.mem_map_of_mem _ hsmem)
                have hmem2 := hFDperm.subset hymem
                rcases List.mem_map.mp hmem2 with ⟨v, hv, hveq⟩
                have hvpath : v.path = childFull d s := by
                  have hcp := canon_path v
                  rw [hveq] at hcp
                  simpa [MerkleNode.path] using hcp.symm
                exact absurd (by simp [hvpath] :
                    (v.path == childFull d s) = true)
                  (by simpa using List.find?_eq_none.mp hfind v hv)
              have hwfnil : SegWF ([] : List (List String)) :=
                ⟨List.nodup_nil, by simp, List.Pairwise.nil⟩
              have hwfsub : SegWF (([] : List (List String)) ++
                  [s2 :: rest']) :=
                SegWF_append_intro hwfnil (by simp) (by simp) (by simp)
              have hsub := ih (childFull d s) [] [] hwfsub (by
                rw [canonL_nil, canonGroup_nil])
              rw [List.nil_append] at hsub
              have hlen2 : 2 ≤ (s :: s2 :: rest').length := by
                simp only [List.length_cons]
                omega
              have hF : fileNodesOf d (M ++ [s :: s2 :: rest']) =
                  fileNodesOf d M := by
                rw [fileNodesOf, filter_one_append_long M hlen2,
                  fileNodesOf]
              have hsX : s ∉ (M.filter
                  (fun q => 2 ≤ q.length)).map headStr := by
                intro hmem
                exact hs (by
                  rw [headsOf]
                  exact List.mem_dedup.mpr hmem)
              have hheads : (headsOf (M ++ [s :: s2 :: rest'])).Perm
                  (headsOf M ++ [s]) := by
                rw [headsOf_append]
                rw [show (List.filter (fun q => decide (2 ≤ q.length))
                    [s :: s2 :: rest']).map headStr = [s] by
                  rw [filter_two_seg]
                  rfl]
                rw [headsOf]
                exact dedup_append_not_mem hsX
              have hgt_other : ∀ x ∈ headsOf M,
                  groupTails (M ++ [s :: s2 :: rest']) x =
                    groupTails M x := by
                intro x hx
                rw [groupTails_append,
                  groupTails_single_other x (by
                    intro hsx
                    rw [headStr] at hsx
                    exact hs (hsx ▸ hx)),
                  List.append_nil]
              have hgt_s : groupTails (M ++ [s :: s2 :: rest']) s =
                  [s2 :: rest'] := by
                rw [groupTails_append, groupTails_empty_of_not_head hs,
                  List.nil_append, groupTails_single_long hlen2 s rfl]
                rfl
              have hD : (dirNodesOf d (M ++ [s :: s2 :: rest'])).Perm
                  (dirNodesOf d M ++ [MerkleNode.dir (childFull d s) ""
                    (canonGroup (childFull d s) [s2 :: rest'])]) := by
                rw [dirNodesOf]
                refine (hheads.map _).trans ?_
                rw [List.map_append, List.map_cons, List.map_nil]
                have h1 : (headsOf M).map (fun x =>
                    MerkleNode.dir (childFull d x) ""
                      (canonGroup (childFull d x)
                        (groupTails (M ++ [s :: s2 :: rest']) x))) =
                    dirNodesOf d M := by
                  rw [dirNodesOf]
                  exact List.map_congr_left (fun x hx => by
                    rw [hgt_other x hx])
                rw [h1, hgt_s]
              rw [happ, canonGroup_eq, canonL, List.map_append]
              have hcanonnd : List.map canon
                  [MerkleNode.dir (childFull d s) ""
                    (appendChild (s2 :: rest') (childFull d s) [])] =
                  [MerkleNode.dir (childFull d s) ""
                    (canonGroup (childFull d s) [s2 :: rest'])] := by
                rw [List.map_cons, List.map_nil, canon_dir, hsub]
              rw [hcanonnd]
              refine (sortByPath_perm_eq ?_
                (canonGroup_paths_nodup hwf d)).symm
              rw [hF]
              refine (List.Perm.append_left _ hD).trans ?_
              rw [← List.append_assoc]
              exact (hFDperm.append_right _)
          | some c =>
              have hcmem : c ∈ ch := List.mem_of_find?_eq_some hfind
              have hcpath : c.path = childFull d s := by
                simpa using List.find?_some hfind
              have hcanonc : canon c ∈
                  fileNodesOf d M ++ dirNodesOf d M :=
                hFDperm.symm.subset (List.mem_map_of_mem canon hcmem)
              rcases mem_fileNodes_or_dirNodes hcanonc with
                ⟨q, hqM, hqlen, hqeq⟩ | ⟨x, hx, hxeq⟩
              · exfalso
                have hqpath : childFull d (headStr q) = c.path := by
                  have hcp := canon_path c
                  rw [hqeq] at hcp
                  simpa [MerkleNode.path] using hcp
                have hhead : headStr q = s :=
                  childFull_inj (by rw [hqpath, hcpath])
                have hqs : q = [s] := by
                  rw [singleton_of_length_one hqlen, hhead]
                refine (hrel q hqM).1 ?_
                rw [hqs]
                exact ⟨by simp, by simp [headStr]⟩
              · have hxs : x = s := by
                  have hcp := (canon_path c).trans hcpath
                  rw [hxeq] at hcp
                  exact childFull_inj (by
                    simpa [MerkleNode.path] using hcp)
                subst hxs
                cases c with
                | file pf hf =>
                    rw [canon_file] at hxeq
                    exact absurd hxeq (by simp)
                | dir pc hc chSub =>
                    rw [canon_dir] at hxeq
                    injection hxeq with hpc hhc hchSub
                    simp only [MerkleNode.path] at hcpath
                    have hsubwf : SegWF (groupTails M x ++
                        [s2 :: rest']) := by
                      refine SegWF_append_intro
                        (SegWF_groupTails hwfM x) ?_ (by simp) ?_
                      · intro hmem
                        exact hnotin (groupTails_reconstruct hmem)
                      · intro t ht
                        have hstM := groupTails_reconstruct ht
                        have hq := hrel (x :: t) hstM
                        exact ⟨fun hcon => hq.1 (strictUnder_cons.mpr hcon),
                          fun hcon => hq.2 (strictUnder_cons.mpr hcon)⟩
                    have hsub := ih (childFull d x) (groupTails M x)
                      chSub hsubwf hchSub
                    have happ : appendChild (x :: s2 :: rest') d ch =
                        replaceFirstByPath ch (childFull d x)
                          (MerkleNode.dir pc hc
                            (appendChild (s2 :: rest')
                              (childFull d x) chSub)) := by
                      rw [appendChild, hfind]
                    obtain ⟨pre, post, hdecomp, hpre⟩ := find?_decomp hfind
                    have hrepl : replaceFirstByPath ch (childFull d x)
                        (MerkleNode.dir pc hc
                          (appendChild (s2 :: rest')
                            (childFull d x) chSub)) =
                        pre ++ (MerkleNode.dir pc hc
                          (appendChild (s2 :: rest')
                            (childFull d x) chSub)) :: post := by
                      rw [hdecomp]
                      exact replaceFirstByPath_decomp pre post _ _ _
                        (by simp [MerkleNode.path, hcpath]) hpre
                    have hcanonN : canon (MerkleNode.dir pc hc
                        (appendChild (s2 :: rest')
                          (childFull d x) chSub)) =
                        MerkleNode.dir (childFull d x) ""
                          (canonGroup (childFull d x)
                            (groupTails M x ++ [s2 :: rest'])) := by
                      rw [canon_dir, hsub, hpc, hhc]
                    -- multiset bookkeeping
                    have hndH : (headsOf M).Nodup := List.nodup_dedup _
                    have hHperm : (headsOf M).Perm
                        (x :: (headsOf M).erase x) :=
                      List.perm_cons_erase hx
                    have hDperm : (dirNodesOf d M).Perm
                        (MerkleNode.dir (childFull d x) ""
                          (canonGroup (childFull d x) (groupTails M x)) ::
                          ((headsOf M).erase x).map (fun z =>
                            MerkleNode.dir (childFull d z) ""
                              (canonGroup (childFull d z)
                                (groupTails M z)))) := by
                      rw [dirNodesOf]
                      exact hHperm.map _
                    have hheads : (headsOf
                        (M ++ [x :: s2 :: rest'])).Perm (headsOf M) := by
                      rw [headsOf_append]
                      rw [show (List.filter
                          (fun q => decide (2 ≤ q.length))
                          [x :: s2 :: rest']).map headStr = [x] by
                        rw [filter_two_seg]
                        rfl]
                      rw [headsOf]
                      refine dedup_append_mem ?_
                      rcases mem_headsOf.mp hx with ⟨q, hqM, hql, hqh⟩
                      exact List.mem_map.mpr ⟨q,
                        List.mem_filter.mpr ⟨hqM, by simpa using hql⟩, hqh⟩
                    have hgt_s : groupTails (M ++ [x :: s2 :: rest']) x =
                        groupTails M x ++ [s2 :: rest'] := by
                      rw [groupTails_append,
                        groupTails_single_long
                          (show 2 ≤ (x :: s2 :: rest').length by
                            simp only [List.length_cons]; omega) x rfl]
                      rfl
                    have hgt_other : ∀ z ∈ (headsOf M).erase x,
                        groupTails (M ++ [x :: s2 :: rest']) z =
                          groupTails M z := by
                      intro z hz
                      have hzx : z ≠ x :=
                        ((List.Nodup.mem_erase_iff hndH).mp hz).1
                      rw [groupTails_append,
                        groupTails_single_other z (by
                          intro hcon
                          rw [headStr] at hcon
                          exact hzx hcon.symm),
                        List.append_nil]
                    have hD' : (dirNodesOf d
                        (M ++ [x :: s2 :: rest'])).Perm
                        (MerkleNode.dir (childFull d x) ""
                          (canonGroup (childFull d x)
                            (groupTails M x ++ [s2 :: rest'])) ::
                          ((headsOf M).erase x).map (fun z =>
                            MerkleNode.dir (childFull d z) ""
                              (canonGroup (childFull d z)
                                (groupTails M z)))) := by
                      rw [dirNodesOf]
                      refine ((hheads.map _).trans
                        (hHperm.map _)).trans ?_
                      rw [List.map_cons, hgt_s]
                      refine List.Perm.cons _ ?_
                      rw [List.map_congr_left (fun z hz => by
                        rw [hgt_other z hz])]
                    have hF' : fileNodesOf d (M ++ [x :: s2 :: rest']) =
                        fileNodesOf d M := by
                      rw [fileNodesOf,
                        filter_one_append_long M
                          (by simp only [List.length_cons]; omega),
                        fileNodesOf]
                    -- W ~ F ++ D₀
                    have hchW : (ch.map canon).Perm
                        (canon (MerkleNode.dir pc hc chSub) ::
                          (pre.map canon ++ post.map canon)) := by
                      rw [hdecomp, List.map_append, List.map_cons]
                      exact List.perm_middle
                    have hYW : ((fileNodesOf d M ++
                        ((headsOf M).erase x).map (fun z =>
                          MerkleNode.dir (childFull d z) ""
                            (canonGroup (childFull d z)
                              (groupTails M z))))).Perm
                        (pre.map canon ++ post.map canon) := by
                      have hchain : (MerkleNode.dir (childFull d x) ""
                          (canonGroup (childFull d x)
                            (groupTails M x)) ::
                          (fileNodesOf d M ++
                            ((headsOf M).erase x).map (fun z =>
                              MerkleNode.dir (childFull d z) ""
                                (canonGroup (childFull d z)
                                  (groupTails M z))))).Perm
                          (canon (MerkleNode.dir pc hc chSub) ::
                            (pre.map canon ++ post.map canon)) := by
                        refine List.Perm.trans ?_
                          (hFDperm.trans hchW)
                        refine List.Perm.trans ?_
                          (List.Perm.append_left _ hDperm).symm
                        exact List.perm_middle.symm
                      have hcc : canon (MerkleNode.dir pc hc chSub) =
                          MerkleNode.dir (childFull d x) ""
                            (canonGroup (childFull d x)
                              (groupTails M x)) := by
                        rw [canon_dir, hpc, hhc, hchSub]
                      rw [hcc] at hchain
                      exact hchain.cons_inv
                    rw [happ, hrepl, canonGroup_eq, canonL]
                    refine (sortByPath_perm_eq ?_
                      (canonGroup_paths_nodup hwf d)).symm
                    rw [hF', List.map_append, List.map_cons, hcanonN]
                    refine (List.Perm.append_left _ hD').trans ?_
                    refine List.perm_middle.trans ?_
                    refine List.Perm.trans ?_ List.perm_middle.symm
                    exact List.Perm.cons _ hYW


/-- `splitSegs` never returns the empty list. -/
theorem splitSegs_ne_nil (l : List Char) : splitSegs l ≠ [] := by
  cases l with
  | nil => simp [splitSegs]
  | cons c rest =>
      rw [splitSegs]
      cases hs : splitSegs rest with
      | nil => simp
      | cons h t =>
          show (if c = '/' then [] :: h :: t else (c :: h) :: t) ≠ []
          by_cases hc : c = '/'
          · rw [if_pos hc]
            simp
          · rw [if_neg hc]
            simp

/-- Rejoin the segments with slashes (the inverse of `splitSegs`). -/
def joinSegs : List (List Char) → List Char
  | [] => []
  | [h] => h
  | h :: h2 :: t => h ++ '/' :: joinSegs (h2 :: t)

theorem joinSegs_splitSegs (l : List Char) : joinSegs (splitSegs l) = l := by
  induction l with
  | nil => rfl
  | cons c rest ih =>
      rw [splitSegs]
      cases hs : splitSegs rest with
      | nil => exact absurd hs (splitSegs_ne_nil rest)
      | cons h t =>
          rw [hs] at ih
          show joinSegs (if c = '/' then [] :: h :: t
            else (c :: h) :: t) = c :: rest
          by_cases hc : c = '/'
          · rw [if_pos hc, hc]
            show '/' :: joinSegs (h :: t) = '/' :: rest
            rw [ih]
          · rw [if_neg hc]
            cases t with
            | nil =>
                show c :: h = c :: rest
                rw [show joinSegs [h] = h from rfl] at ih
                rw [ih]
            | cons h2 t' =>
                show (c :: h) ++ '/' :: joinSegs (h2 :: t') = c :: rest
                rw [← ih]
                rfl

theorem splitSegs_inj {l₁ l₂ : List Char}
    (h : splitSegs l₁ = splitSegs l₂) : l₁ = l₂ := by
  rw [← joinSegs_splitSegs l₁, ← joinSegs_splitSegs l₂, h]

theorem splitOnSlash_injective : Function.Injective splitOnSlash := by
  intro a b h
  rw [splitOnSlash, splitOnSlash] at h
  have hmk : Function.Injective (fun l : List Char => String.mk l) := by
    intro x y hxy
    cases hxy
    rfl
  have hseg : splitSegs a.toList = splitSegs b.toList :=
    List.map_injective_iff.mpr hmk h
  apply String.ext
  simpa [String.toList] using splitSegs_inj hseg

theorem splitOnSlash_ne_nil (p : String) : splitOnSlash p ≠ [] := by
  rw [splitOnSlash]
  intro h
  exact splitSegs_ne_nil p.toList (List.map_eq_nil.mp h)

/-- The skeleton fold computes the canonical skeleton of the inserted
segment lists, for any well-formed insertion sequence. -/
theorem canonL_foldl_appendChild (L : List String) :
    SegWF (L.map splitOnSlash) →
    canonL (L.foldl (fun children p =>
      appendChild (splitOnSlash p) "" children) []) =
      canonGroup "" (L.map splitOnSlash) := by
  induction L using List.reverseRecOn with
  | nil =>
      intro _
      rw [List.foldl_nil, List.map_nil, canonL_nil, canonGroup_nil]
  | append_singleton L p ih =>
      intro hwf
      rw [List.map_append, List.map_cons, List.map_nil] at hwf
      rw [List.map_append, List.map_cons, List.map_nil,
        List.foldl_append, List.foldl_cons, List.foldl_nil]
      obtain ⟨hwfM, -, -, -⟩ := SegWF_append_elim hwf
      exact canonL_appendChild (splitOnSlash p) "" (L.map splitOnSlash)
        _ hwf (ih hwfM)

/-- A distinct, mutually non-ancestral file listing yields a well-formed
multiset of segment lists, in any order. -/
theorem SegWF_of_listing {files : List String} (hnd : files.Nodup)
    (hanc : files.Pairwise (fun a b =>
      ¬ strictUnder (splitOnSlash a) (splitOnSlash b) ∧
      ¬ strictUnder (splitOnSlash b) (splitOnSlash a))) :
    SegWF ((depthSorted files).map splitOnSlash) := by
  have hperm : (depthSorted files).Perm files :=
    perm_insertionSortBy _ files
  refine ⟨?_, ?_, ?_⟩
  · exact List.Nodup.map splitOnSlash_injective (hperm.nodup_iff.mpr hnd)
  · intro q hq
    rcases List.mem_map.mp hq with ⟨p, -, rfl⟩
    exact splitOnSlash_ne_nil p
  · rw [List.pairwise_map]
    exact (hperm.pairwise_iff And.symm).mpr hanc

/-- C3 (amended): `buildTree` is order-independent on lists of distinct
relative paths in which no path is a proper directory-ancestor (strict
slash-segment prefix) of another: for every permutation of such a list
and every per-path hash function the root hash is identical.  (Without
the ancestor-freeness proviso the claim fails, see
`buildTree_root_hash_order_dependent`.) -/
theorem buildTree_root_hash_perm_invariant (files files' : List String)
    (hashOf : String → String) (hperm : files.Perm files')
    (hnd : files.Nodup)
    (hanc : files.Pairwise (fun a b =>
      ¬ strictUnder (splitOnSlash a) (splitOnSlash b) ∧
      ¬ strictUnder (splitOnSlash b) (splitOnSlash a))) :
    (buildTree files hashOf).hash = (buildTree files' hashOf).hash := by
  have hnd' : files'.Nodup := hperm.nodup_iff.mp hnd
  have hanc' : files'.Pairwise (fun a b =>
      ¬ strictUnder (splitOnSlash a) (splitOnSlash b) ∧
      ¬ strictUnder (splitOnSlash b) (splitOnSlash a)) :=
    (hperm.pairwise_iff And.symm).mp hanc
  have hwf1 := SegWF_of_listing hnd hanc
  have hwf2 := SegWF_of_listing hnd' hanc'
  have hMperm : (((depthSorted files).map splitOnSlash)).Perm
      ((depthSorted files').map splitOnSlash) :=
    ((perm_insertionSortBy _ files).trans (hperm.trans
      (perm_insertionSortBy _ files').symm)).map splitOnSlash
  have hcg : canonGroup "" ((depthSorted files).map splitOnSlash) =
      canonGroup "" ((depthSorted files').map splitOnSlash) :=
    canonGroup_perm _ _ _ "" le_rfl hMperm hwf1
  have hcanonL : canonL (buildSkeleton files) =
      canonL (buildSkeleton files') := by
    rw [buildSkeleton, buildSkeleton,
      canonL_foldl_appendChild _ hwf1, canonL_foldl_appendChild _ hwf2,
      hcg]
  have hweq : listWeight (buildSkeleton files) =
      listWeight (buildSkeleton files') := by
    rw [← listWeight_canonL (buildSkeleton files), hcanonL,
      listWeight_canonL]
  have hcroot : canon (MerkleNode.dir "" "" (buildSkeleton files)) =
      canon (MerkleNode.dir "" "" (buildSkeleton files')) := by
    rw [canon_dir, canon_dir, hcanonL]
  have hfuel : nodeWeight (MerkleNode.dir "" "" (buildSkeleton files)) =
      nodeWeight (MerkleNode.dir "" "" (buildSkeleton files')) := by
    simp only [nodeWeight]
    omega
  have h1 := (calcHashF_canon hashOf
    (nodeWeight (MerkleNode.dir "" "" (buildSkeleton files)))
    (MerkleNode.dir "" "" (buildSkeleton files))).2
  have h2 := (calcHashF_canon hashOf
    (nodeWeight (MerkleNode.dir "" "" (buildSkeleton files')))
    (MerkleNode.dir "" "" (buildSkeleton files'))).2
  simp only [buildTree]
  rw [← h1, ← h2, hcroot, hfuel]

theorem buildTree_root_hash_perm_invariant_witness :
    List.Perm ["a/b", "c"] ["c", "a/b"] ∧
    (["a/b", "c"] : List String).Nodup ∧
    (["a/b", "c"] : List String).Pairwise (fun a b =>
      ¬ strictUnder (splitOnSlash a) (splitOnSlash b) ∧
      ¬ strictUnder (splitOnSlash b) (splitOnSlash a)) ∧
    (buildTree ["a/b", "c"] (fun p => "h:" ++ p)).hash =
      (buildTree ["c", "a/b"] (fun p => "h:" ++ p)).hash :=
  ⟨by decide, by decide, by decide,
    buildTree_root_hash_perm_invariant ["a/b", "c"] ["c", "a/b"]
      (fun p => "h:" ++ p) (by decide) (by decide) (by decide)⟩

end GithubApiSync